import Mathlib

/-!
Shallow embedding of the `datastructures-ts` repository core:
`src/Heap/BinaryHeap.ts` and `src/BinarySearchTree/BinarySearchTree.ts`.

The three-valued `Comparator<T>` (`-1 | 0 | 1`, `src/util/comparable.ts`) is
embedded as `T → T → Ordering`, with `.lt`, `.eq`, `.gt` standing for `-1`,
`0`, `1`.  Mutable JS arrays become `List T`; `Maybe<Node>` becomes a `nil`
constructor; a thrown `RangeError` becomes an `Except` error exactly where
the source throws.  Loops whose indices are not structurally decreasing are
given explicit fuel; every call site passes fuel that provably suffices, so
the fuel-exhausted branches coincide with the loop-guard-false branches.
-/

namespace DS

/-- `Comparator<T>` from `src/util/comparable.ts`. -/
abbrev Cmp (T : Type) := T → T → Ordering

/-- The contract the spec imposes on a caller-supplied comparator (a
consistent strict total preorder): `asym` relates the two argument orders,
`le_trans` is transitivity of "not greater". -/
structure LawfulCmp {T : Type} (cmp : Cmp T) : Prop where
  asym : ∀ a b, cmp a b = .lt ↔ cmp b a = .gt
  le_trans : ∀ a b c, cmp a b ≠ .gt → cmp b c ≠ .gt → cmp a c ≠ .gt

namespace BinaryHeap

variable {T : Type}

/-- `heapPropertyHolds` (`BinaryHeap.ts`): the pair is ordered iff the
comparator does not deem the parent lower priority. -/
def heapPropertyHolds (cmp : Cmp T) (parent child : T) : Bool :=
  cmp parent child != .lt

/-- `parentIndexOf` (`BinaryHeap.ts`); the `-1` returned for the root is
rendered as `none`. -/
def parentIndexOf (index : Nat) : Option Nat :=
  if index = 0 then none
  else if index % 2 = 0 then some ((index - 2) / 2)
  else some ((index - 1) / 2)

/-- `swap` (`BinaryHeap.ts`): both reads happen before both writes.  All call
sites pass in-range indices; out-of-range access is rendered as the
identity. -/
def swap (l : List T) (indexA indexB : Nat) : List T :=
  match l[indexA]?, l[indexB]? with
  | some a, some b => (l.set indexA b).set indexB a
  | _, _ => l

/-- Loop of `heapifyUp` (`BinaryHeap.ts`).  `current` is read once before the
loop, exactly as in the source.  The index strictly decreases at every
iteration, so `fuel := index` suffices; at fuel `0` the index is `0` and the
real loop also stops (no parent). -/
def heapifyUpGo (cmp : Cmp T) (current : T) :
    Nat → List T → Nat → List T × Nat
  | 0, l, currentIndex => (l, currentIndex)
  | fuel+1, l, currentIndex =>
    match parentIndexOf currentIndex with
    | none => (l, currentIndex)
    | some parentIndex =>
      match l[parentIndex]? with
      | none => (l, currentIndex)
      | some parent =>
        if heapPropertyHolds cmp parent current then (l, currentIndex)
        else heapifyUpGo cmp current fuel
          ((l.set parentIndex current).set currentIndex parent) parentIndex

/-- `heapifyUp` (`BinaryHeap.ts`).  The source throws if no element exists at
`index`; every call site passes an in-range index, so that branch is rendered
as the identity result. -/
def heapifyUp (cmp : Cmp T) (l : List T) (index : Nat) : List T × Nat :=
  match l[index]? with
  | none => (l, index)
  | some current => heapifyUpGo cmp current index l index

/-- Loop of `heapifyDown` (`BinaryHeap.ts`).  `current` is read once before
the loop.  The index strictly increases and stays below the (constant)
length, so `fuel := length` suffices. -/
def heapifyDownGo (cmp : Cmp T) (current : T) :
    Nat → List T → Nat → List T × Nat
  | 0, l, index => (l, index)
  | fuel+1, l, index =>
    let leftChildIndex := 2 * index + 1
    let rightChildIndex := 2 * index + 2
    let leftChild := l[leftChildIndex]?
    let rightChild := l[rightChildIndex]?
    let leftViolated := match leftChild with
      | some lc => !(heapPropertyHolds cmp current lc)
      | none => false
    let rightViolated := match rightChild with
      | some rc => !(heapPropertyHolds cmp current rc)
      | none => false
    if leftViolated || rightViolated then
      let toSwapIndex :=
        match leftChild, rightChild with
        | none, _ => rightChildIndex
        | some _, none => leftChildIndex
        | some lc, some rc =>
          if heapPropertyHolds cmp lc rc then leftChildIndex else rightChildIndex
      heapifyDownGo cmp current fuel (swap l toSwapIndex index) toSwapIndex
    else (l, index)

/-- `heapifyDown` (`BinaryHeap.ts`); same remark on the unreachable
out-of-range branch as for `heapifyUp`. -/
def heapifyDown (cmp : Cmp T) (l : List T) (index : Nat) : List T × Nat :=
  match l[index]? with
  | none => (l, index)
  | some current => heapifyDownGo cmp current l.length l index

/-- The `BinaryHeap` constructor: copy `items` into the backing array, then
heapify-down every index from `size - 1` down to `0`. -/
def build (cmp : Cmp T) (items : List T) : List T :=
  (List.range items.length).reverse.foldl
    (fun l i => (heapifyDown cmp l i).1) items

/-- `add` (`BinaryHeap.ts`): push to the end, then heapify-up the last
index. -/
def add (cmp : Cmp T) (l : List T) (element : T) : List T :=
  let pushed := l ++ [element]
  (heapifyUp cmp pushed (pushed.length - 1)).1

/-- `peek` (`BinaryHeap.ts`) is `return this._heap[0]` with no emptiness
check: on an empty heap the source returns `undefined` (here `none`) instead
of throwing the documented `RangeError`. -/
def peek (l : List T) : Option T := l[0]?

inductive HeapErr where
  | empty
  | notFound
deriving DecidableEq, Repr

/-- `poll` (`BinaryHeap.ts`): throws on an empty heap; otherwise captures
index 0, swaps it with the last element, pops, heapifies down from 0 when
elements remain, and returns the captured value. -/
def poll (cmp : Cmp T) (l : List T) : Except HeapErr (T × List T) :=
  match l[0]? with
  | none => .error .empty
  | some first =>
    let swapped := swap l 0 (l.length - 1)
    let popped := swapped.dropLast
    if 0 < popped.length then .ok (first, (heapifyDown cmp popped 0).1)
    else .ok (first, popped)

/-- `remove` (`BinaryHeap.ts`): locate the first strictly-equal element,
throw if absent; swap with the last element, pop; if the index still has
valid occupancy, heapify up, and heapify down only when the up pass did not
move the element. -/
def remove (cmp : Cmp T) [BEq T] (l : List T) (element : T) :
    Except HeapErr (T × List T) :=
  match l.findIdx? (fun y => y == element) with
  | none => .error .notFound
  | some index =>
    let swapped := swap l index (l.length - 1)
    let popped := swapped.dropLast
    let final :=
      if 0 < popped.length ∧ index < popped.length then
        let up := heapifyUp cmp popped index
        if up.2 = index then (heapifyDown cmp up.1 up.2).1 else up.1
      else popped
    .ok (element, final)

/-- `contains` (`BinaryHeap.ts`): linear equality scan. -/
def containsEl [BEq T] (l : List T) (element : T) : Bool :=
  l.contains element

end BinaryHeap

namespace BST

variable {T : Type}

/-- `BinarySearchNode<T>` together with its `Maybe` wrapper: `nil` is the
`null` pointer. -/
inductive Node (T : Type) where
  | nil : Node T
  | node (value : T) (left right : Node T) : Node T
deriving DecidableEq, Repr

/-- The tree object: `_root` and `_size`. -/
structure Tree (T : Type) where
  root : Node T
  size : Nat
deriving DecidableEq, Repr

def Tree.empty : Tree T := ⟨.nil, 0⟩

/-- `addUnderSubtree` (`BinarySearchTree.ts`): returns the updated subtree
plus whether a node was created (the source returns the created node or
`null`). -/
def addUnderSubtree (cmp : Cmp T) (element : T) : Node T → Node T × Bool
  | .nil => (.nil, false)
  | .node v l r =>
    if cmp element v = .gt then
      match r with
      | .nil => (.node v l (.node element .nil .nil), true)
      | rn =>
        let res := addUnderSubtree cmp element rn
        (.node v l res.1, res.2)
    else if cmp element v = .lt then
      match l with
      | .nil => (.node v (.node element .nil .nil) r, true)
      | ln =>
        let res := addUnderSubtree cmp element ln
        (.node v res.1 r, res.2)
    else (.node v l r, false)

/-- `add` (`BinarySearchTree.ts`): an empty tree gets a fresh root; otherwise
descend, and `_size` is incremented only when a node was created. -/
def add (cmp : Cmp T) (t : Tree T) (element : T) : Tree T :=
  match t.root with
  | .nil => ⟨.node element .nil .nil, t.size + 1⟩
  | .node v l r =>
    let res := addUnderSubtree cmp element (.node v l r)
    ⟨res.1, if res.2 then t.size + 1 else t.size⟩

/-- Build a tree by repeated `add`, as the constructor does with its initial
`elements` array. -/
def ofList (cmp : Cmp T) (xs : List T) : Tree T :=
  xs.foldl (add cmp) Tree.empty

/-- `findUnderSubtree` (`BinarySearchTree.ts`), node component of its
result.  `nil` renders the `{ node: null }` miss. -/
def findUnderSubtree (cmp : Cmp T) (element : T) : Node T → Node T
  | .nil => .nil
  | .node v l r =>
    if cmp element v = .eq then .node v l r
    else if cmp element v = .gt then
      match r with
      | .nil => .nil
      | rn => findUnderSubtree cmp element rn
    else if cmp element v = .lt then
      match l with
      | .nil => .nil
      | ln => findUnderSubtree cmp element ln
    else .nil

/-- `find` (`BinarySearchTree.ts`): the matching node, or `null`; never an
error. -/
def find (cmp : Cmp T) (t : Tree T) (element : T) : Node T :=
  match t.root with
  | .nil => .nil
  | .node v l r => findUnderSubtree cmp element (.node v l r)

/-- `findMinInTree` (`BinarySearchTree.ts`), node component: descend `left`
as far as possible.  The source also returns a `parent`, but it assigns
`parent = root` only after `root = root.left`, so whenever the loop runs the
returned parent aliases the minimum node itself; `setLeftmostLeftToRight`
below renders the consequence of that aliasing. -/
def findMin : Node T → Node T
  | .nil => .nil
  | .node v .nil r => .node v .nil r
  | .node _ (.node lv ll lr) _ => findMin (.node lv ll lr)

/-- Effect of `successorParent.left = successor.right` in `remove` case 2d
when the successor is not the direct right child: because of the parent bug
in `findMinInTree`, `successorParent` aliases the successor, so the
successor keeps its place in the tree and its `left` pointer is redirected
to its own `right` child (the right child is then shared by both sides). -/
def setLeftmostLeftToRight : Node T → Node T
  | .nil => .nil
  | .node v .nil r => .node v r r
  | .node v (.node lv ll lr) r =>
    .node v (setLeftmostLeftToRight (.node lv ll lr)) r

/-- Case 2d of `remove` (`toRemove` has both children): copy the successor
value over `toRemove.value`, then detach (or, with the aliasing bug, fail to
detach) the successor. -/
def removeBothChildren (v : T) (l r : Node T) : Node T :=
  match r with
  | .nil => .nil
  | .node rv .nil rr => .node rv l rr
  | .node rv (.node rlv rll rlr) rr =>
    match findMin (.node rv (.node rlv rll rlr) rr) with
    | .nil => .nil
    | .node sv _ _ =>
      .node sv l (setLeftmostLeftToRight (.node rv (.node rlv rll rlr) rr))

/-- The four deletion cases when the removed node is the root
(`parent === null`): every write targets `this._root`. -/
def removeRootNode (v : T) (l r : Node T) : Node T :=
  match l, r with
  | .nil, .nil => .nil
  | .nil, .node rv rl rr => .node rv rl rr
  | .node lv ll lr, .nil => .node lv ll lr
  | .node lv ll lr, .node rv rl rr =>
    removeBothChildren v (.node lv ll lr) (.node rv rl rr)

inductive Side where
  | left
  | right
deriving DecidableEq, Repr

/-- `parentSide` (`remove`, step 2): recomputed from the comparator against
`parent.left`, not taken from the actual descent direction. -/
def parentSide (cmp : Cmp T) (toRemoveValue : T) : Node T → Side
  | .node plv _ _ => if cmp toRemoveValue plv = .eq then .left else .right
  | .nil => .right

/-- Rewrite of the parent node once `toRemove` (sitting on actual side
`side`) is found: cases 2a-2c write through `parent[parentSide]`, case 2d
mutates `toRemove` in place, i.e. replaces the subtree at its actual
position. -/
def spliceOutChild (cmp : Cmp T) (pv : T) (pl pr : Node T) (side : Side) :
    Node T :=
  let toRemove := match side with | .left => pl | .right => pr
  match toRemove with
  | .nil => .node pv pl pr
  | .node tv tl tr =>
    let ps := parentSide cmp tv pl
    let assign : Node T → Node T := fun sub =>
      match ps with
      | .left => .node pv sub pr
      | .right => .node pv pl sub
    match tl, tr with
    | .nil, .nil => assign .nil
    | .nil, .node trv trl trr => assign (.node trv trl trr)
    | .node tlv tll tlr, .nil => assign (.node tlv tll tlr)
    | .node tlv tll tlr, .node trv trl trr =>
      match side with
      | .left => .node pv (removeBothChildren tv (.node tlv tll tlr) (.node trv trl trr)) pr
      | .right => .node pv pl (removeBothChildren tv (.node tlv tll tlr) (.node trv trl trr))

/-- Descent of `remove`: `findUnderSubtree` tracks `(node, parent)`; the
splice rewrites the parent, so the purified removal rebuilds the path down
to that parent.  `none` renders the `{ node: null }` miss (the source then
throws). -/
def removeBelow (cmp : Cmp T) (element : T) : Node T → Option (Node T)
  | .nil => none
  | .node pv pl pr =>
    if cmp element pv = .gt then
      match pr with
      | .nil => none
      | .node cv cl cr =>
        if cmp element cv = .eq then
          some (spliceOutChild cmp pv pl pr .right)
        else
          (removeBelow cmp element (.node cv cl cr)).map
            (fun pr' => .node pv pl pr')
    else if cmp element pv = .lt then
      match pl with
      | .nil => none
      | .node cv cl cr =>
        if cmp element cv = .eq then
          some (spliceOutChild cmp pv pl pr .left)
        else
          (removeBelow cmp element (.node cv cl cr)).map
            (fun pl' => .node pv pl' pr)
    else none

inductive BstErr where
  | notFound
deriving DecidableEq, Repr

/-- `remove` (`BinarySearchTree.ts`): `RangeError` when the tree is empty or
the element is absent; on success `_size` is decremented and the requested
element returned. -/
def remove (cmp : Cmp T) (t : Tree T) (element : T) :
    Except BstErr (T × Tree T) :=
  match t.root with
  | .nil => .error .notFound
  | .node v l r =>
    if cmp element v = .eq then
      .ok (element, ⟨removeRootNode v l r, t.size - 1⟩)
    else
      match removeBelow cmp element (.node v l r) with
      | some root' => .ok (element, ⟨root', t.size - 1⟩)
      | none => .error .notFound

/-- Number of nodes; every iterator emits one value per `next()`, so this
many steps exhaust it. -/
def countNodes : Node T → Nat
  | .nil => 0
  | .node _ l r => countNodes l + countNodes r + 1

/-- Recursive in-order traversal, used as the reference point when reasoning
about the in-order iterator. -/
def inorder : Node T → List T
  | .nil => []
  | .node v l r => inorder l ++ v :: inorder r

/-- The strict search-tree invariant that `add` establishes (duplicates are
rejected, so both sides are strict): every left value compares `lt` against
the node value, every right value `gt`. -/
def SearchTree (cmp : Cmp T) : Node T → Prop
  | .nil => True
  | .node v l r =>
    (∀ y ∈ inorder l, cmp y v = .lt) ∧ (∀ y ∈ inorder r, cmp y v = .gt) ∧
    SearchTree cmp l ∧ SearchTree cmp r

/-- Nodes pushed by the dig-left phase started at a node: its chain of left
descendants, deepest first (the order they end up on the stack). -/
def leftSpine : Node T → List (Node T)
  | .nil => []
  | .node _ l _ =>
    match l with
    | .nil => []
    | ln => leftSpine ln ++ [ln]

/-- The node the dig-left phase stops at: the leftmost node of the
subtree. -/
def deepLeft : Node T → Node T
  | .nil => .nil
  | .node v l r =>
    match l with
    | .nil => .node v .nil r
    | ln => deepLeft ln

/-- Output still owed for a node sitting on the iterator's stack: its own
value, then its right subtree in order (its left part is owed only while the
node is at the dig point). -/
def pendOf : Node T → List T
  | .nil => []
  | .node v _ r => v :: inorder r

/-- Output owed for a whole stack, top first. -/
def remOf (S : List (Node T)) : List T := (S.map pendOf).flatten

/-- `trav` has no unconsumed left chain, so the dig-left loop is a no-op. -/
def leftDone : Node T → Prop
  | .node _ (.node _ _ _) _ => False
  | _ => True

/-- Generic driver: call `step` (= one `next()`) until `done` or the fuel
runs out, collecting the emitted values. -/
def runIter {σ : Type} (step : σ → Option (T × σ)) : Nat → σ → List T
  | 0, _ => []
  | fuel+1, s =>
    match step s with
    | none => []
    | some (v, s') => v :: runIter step fuel s'

/-- `next()` of `TraversePreOrderIterator`: pop, push right then left (left
ends on top), emit. -/
def nextPreOrder : List (Node T) → Option (T × List (Node T))
  | [] => none
  | n :: rest =>
    match n with
    | .nil => none
    | .node v l r =>
      let afterRight := match r with | .nil => rest | .node rv rl rr => .node rv rl rr :: rest
      let afterLeft := match l with | .nil => afterRight | .node lv ll lr => .node lv ll lr :: afterRight
      some (v, afterLeft)

/-- `traversePreOrder()` run to exhaustion. -/
def traversePreOrder (t : Tree T) : List T :=
  match t.root with
  | .nil => []
  | .node v l r => runIter nextPreOrder (countNodes t.root) [.node v l r]

/-- The dig-left phase of `TraverseInOrderIterator.next()`: while `trav` has
a left child, push it and descend. -/
def digLeft : List (Node T) → Node T → List (Node T) × Node T
  | stack, .node v (.node lv ll lr) r =>
    digLeft ((.node lv ll lr) :: stack) (.node lv ll lr)
  | stack, trav => (stack, trav)

/-- `next()` of `TraverseInOrderIterator`: dig left, pop, then move down
right once if possible. -/
def nextInOrder : List (Node T) × Node T → Option (T × (List (Node T) × Node T)) :=
  fun s =>
    match s.1 with
    | [] => none
    | _ :: _ =>
      let dug := digLeft s.1 s.2
      match dug.1 with
      | [] => none
      | n :: rest =>
        match n with
        | .nil => none
        | .node v _ r =>
          match r with
          | .nil => some (v, (rest, dug.2))
          | .node rv rl rr => some (v, (.node rv rl rr :: rest, .node rv rl rr))

/-- `traverseInOrder()` run to exhaustion (the constructor pushes the root
and sets `trav` to it). -/
def traverseInOrder (t : Tree T) : List T :=
  match t.root with
  | .nil => []
  | .node v l r =>
    runIter nextInOrder (countNodes t.root) ([Node.node v l r], .node v l r)

/-- Constructor loop of `TraversePostOrderIterator`: drain `stack1`, pushing
every popped node onto `stack2` and its children onto `stack1` (left first,
so right is popped first). -/
def buildPostOrder : Nat → List (Node T) → List (Node T) → List (Node T)
  | 0, _, stack2 => stack2
  | fuel+1, stack1, stack2 =>
    match stack1 with
    | [] => stack2
    | n :: rest =>
      match n with
      | .nil => buildPostOrder fuel rest stack2
      | .node v l r =>
        let s2 := Node.node v l r :: stack2
        let s1a := match l with | .nil => rest | .node lv ll lr => .node lv ll lr :: rest
        let s1b := match r with | .nil => s1a | .node rv rl rr => .node rv rl rr :: s1a
        buildPostOrder fuel s1b s2

/-- `next()` of `TraversePostOrderIterator`: pop `stack2`, emit. -/
def nextPostOrder : List (Node T) → Option (T × List (Node T))
  | [] => none
  | n :: rest =>
    match n with
    | .nil => none
    | .node v _ _ => some (v, rest)

/-- `traversePostOrder()` run to exhaustion. -/
def traversePostOrder (t : Tree T) : List T :=
  match t.root with
  | .nil => []
  | .node v l r =>
    runIter nextPostOrder (countNodes t.root)
      (buildPostOrder (countNodes t.root) [Node.node v l r] [])

/-- `next()` of `TraverseLevelOrderIterator`: dequeue, enqueue left then
right, emit. -/
def nextLevelOrder : List (Node T) → Option (T × List (Node T))
  | [] => none
  | n :: rest =>
    match n with
    | .nil => none
    | .node v l r =>
      let q1 := match l with | .nil => rest | .node lv ll lr => rest ++ [Node.node lv ll lr]
      let q2 := match r with | .nil => q1 | .node rv rl rr => q1 ++ [Node.node rv rl rr]
      some (v, q2)

/-- `traverseLevelOrder()` run to exhaustion. -/
def traverseLevelOrder (t : Tree T) : List T :=
  match t.root with
  | .nil => []
  | .node v l r => runIter nextLevelOrder (countNodes t.root) [Node.node v l r]

end BST

/-- The numeric three-way comparator used by the repository's tests
(`maxComparator` in the spec files): `1` when the first argument is
larger. -/
def maxComparator : Cmp Int := fun a b =>
  if a > b then .gt else if a < b then .lt else .eq

/-- A numeric min-heap comparator: smaller values have higher priority. -/
def minComparator : Cmp Int := fun a b =>
  if a < b then .gt else if a > b then .lt else .eq

/-- One client call on a `BinaryHeap`, for reasoning about interleaved
operation sequences. -/
inductive HeapOp (T : Type) where
  | add (x : T)
  | poll
deriving DecidableEq, Repr

/-- Run a sequence of heap operations from a starting state; a poll on an
empty heap throws in the source, rendered as `none` (the run aborts). -/
def runOps (cmp : Cmp T) : List (HeapOp T) → List T → Option (List T)
  | [], h => some h
  | .add x :: rest, h => runOps cmp rest (BinaryHeap.add cmp h x)
  | .poll :: rest, h =>
    match BinaryHeap.poll cmp h with
    | .ok vh => runOps cmp rest vh.2
    | .error _ => none

/-- Like `runOps` but also collects the values returned by the successive
polls, in order. -/
def runOpsTrace (cmp : Cmp T) :
    List (HeapOp T) → List T → Option (List T × List T)
  | [], h => some (h, [])
  | .add x :: rest, h => runOpsTrace cmp rest (BinaryHeap.add cmp h x)
  | .poll :: rest, h =>
    match BinaryHeap.poll cmp h with
    | .ok vh =>
      match runOpsTrace cmp rest vh.2 with
      | some ht => some (ht.1, vh.1 :: ht.2)
      | none => none
    | .error _ => none

/-- The values returned by `k` successive polls (stopping at the empty-heap
error). -/
def pollSeq (cmp : Cmp T) : Nat → List T → List T
  | 0, _ => []
  | k+1, h =>
    match BinaryHeap.poll cmp h with
    | .ok vh => vh.1 :: pollSeq cmp k vh.2
    | .error _ => []

/-- `a` is of equal-or-lower priority than `b` / compares `≤ b`. -/
def leC (cmp : Cmp T) (a b : T) : Prop := cmp a b ≠ .gt

/-- `a` is of equal-or-higher priority than `b` / compares `≥ b`: exactly
`heapPropertyHolds cmp a b` read as a proposition. -/
def geC (cmp : Cmp T) (a b : T) : Prop := cmp a b ≠ .lt

/-- `a` compares strictly below `b`. -/
def ltC (cmp : Cmp T) (a b : T) : Prop := cmp a b = .lt

instance {cmp : Cmp T} (a b : T) : Decidable (leC cmp a b) :=
  inferInstanceAs (Decidable (cmp a b ≠ .gt))

instance {cmp : Cmp T} (a b : T) : Decidable (geC cmp a b) :=
  inferInstanceAs (Decidable (cmp a b ≠ .lt))

instance {cmp : Cmp T} (a b : T) : Decidable (ltC cmp a b) :=
  inferInstanceAs (Decidable (cmp a b = .lt))

/-- The heap invariant of the array encoding: every parent/child pair
(children of `i` at `2i+1` and `2i+2`) satisfies `heapPropertyHolds`. -/
def IsHeap (cmp : Cmp T) (l : List T) : Prop :=
  ∀ i j x y, (j = 2*i+1 ∨ j = 2*i+2) →
    l[i]? = some x → l[j]? = some y → geC cmp x y

/-- Every parent/child pair except the edge into `k` (sift-up loop
invariant). -/
def HeapExceptUp (cmp : Cmp T) (l : List T) (k : Nat) : Prop :=
  ∀ i j x y, (j = 2*i+1 ∨ j = 2*i+2) → j ≠ k →
    l[i]? = some x → l[j]? = some y → geC cmp x y

/-- Every parent/child pair except the edges out of `k` (sift-down loop
invariant). -/
def HeapExceptDown (cmp : Cmp T) (l : List T) (k : Nat) : Prop :=
  ∀ i j x y, (j = 2*i+1 ∨ j = 2*i+2) → i ≠ k →
    l[i]? = some x → l[j]? = some y → geC cmp x y

/-- Every parent/child pair not touching `k` (state after an arbitrary
element is dropped into slot `k`). -/
def HeapExceptAt (cmp : Cmp T) (l : List T) (k : Nat) : Prop :=
  ∀ i j x y, (j = 2*i+1 ∨ j = 2*i+2) → i ≠ k → j ≠ k →
    l[i]? = some x → l[j]? = some y → geC cmp x y

/-- The parent of `k` (when it exists) outranks both children of `k`: the
condition that lets a sift at `k` restore the full heap. -/
def Covered (cmp : Cmp T) (l : List T) (k : Nat) : Prop :=
  ∀ p c x y, (k = 2*p+1 ∨ k = 2*p+2) → (c = 2*k+1 ∨ c = 2*k+2) →
    l[p]? = some x → l[c]? = some y → geC cmp x y

instance {ε α : Type} [DecidableEq ε] [DecidableEq α] : DecidableEq (Except ε α) :=
  fun x y =>
    match x, y with
    | .error a, .error b =>
      if h : a = b then .isTrue (h ▸ rfl)
      else .isFalse (fun hc => h (by cases hc; rfl))
    | .ok a, .ok b =>
      if h : a = b then .isTrue (h ▸ rfl)
      else .isFalse (fun hc => h (by cases hc; rfl))
    | .error _, .ok _ => .isFalse (fun hc => Except.noConfusion hc)
    | .ok _, .error _ => .isFalse (fun hc => Except.noConfusion hc)

end DS

namespace DS

open BinaryHeap BST

/-! ### Length preservation of the sift loops -/

theorem swap_length {T : Type} (l : List T) (i j : Nat) :
    (BinaryHeap.swap l i j).length = l.length := by
  unfold BinaryHeap.swap
  cases hi : l[i]? <;> cases hj : l[j]? <;> simp

theorem heapifyUpGo_length {T : Type} (cmp : Cmp T) (current : T) :
    ∀ fuel (l : List T) (i : Nat),
      ((BinaryHeap.heapifyUpGo cmp current fuel l i).1).length = l.length := by
  intro fuel
  induction fuel with
  | zero => intro l i; simp [BinaryHeap.heapifyUpGo]
  | succ n ih =>
    intro l i
    unfold BinaryHeap.heapifyUpGo
    cases hp : BinaryHeap.parentIndexOf i with
    | none => simp [hp]
    | some pi =>
      simp only [hp]
      cases hv : l[pi]? with
      | none => simp [hv]
      | some parent =>
        simp only [hv]
        by_cases hh : BinaryHeap.heapPropertyHolds cmp parent current
        · simp [hh]
        · simp [hh, ih]

theorem heapifyUp_length {T : Type} (cmp : Cmp T) (l : List T) (i : Nat) :
    ((BinaryHeap.heapifyUp cmp l i).1).length = l.length := by
  unfold BinaryHeap.heapifyUp
  cases h : l[i]? with
  | none => rfl
  | some c => exact heapifyUpGo_length cmp c i l i

theorem heapifyDownGo_length {T : Type} (cmp : Cmp T) (current : T) :
    ∀ fuel (l : List T) (i : Nat),
      ((BinaryHeap.heapifyDownGo cmp current fuel l i).1).length = l.length := by
  intro fuel
  induction fuel with
  | zero => intro l i; simp [BinaryHeap.heapifyDownGo]
  | succ n ih =>
    intro l i
    unfold BinaryHeap.heapifyDownGo
    simp only []
    by_cases hv :
        ((match l[2*i+1]? with
          | some lc => !(BinaryHeap.heapPropertyHolds cmp current lc)
          | none => false)
        ||
         (match l[2*i+2]? with
          | some rc => !(BinaryHeap.heapPropertyHolds cmp current rc)
          | none => false)) = true
    · rw [if_pos hv]
      rw [ih, swap_length]
    · rw [if_neg hv]

theorem heapifyDown_length {T : Type} (cmp : Cmp T) (l : List T) (i : Nat) :
    ((BinaryHeap.heapifyDown cmp l i).1).length = l.length := by
  unfold BinaryHeap.heapifyDown
  cases h : l[i]? with
  | none => rfl
  | some c => exact heapifyDownGo_length cmp c l.length l i

/-- C10: `BinaryHeap.add` appends and re-sifts, so it increments the size by
exactly one for every comparator, heap state and element — in particular it
never rejects (nor errors on) an element equal to one already present, as
the concrete duplicate insertion shows. -/
theorem claim_C10 :
    (∀ (T : Type) (cmp : Cmp T) (h : List T) (x : T),
        (BinaryHeap.add cmp h x).length = h.length + 1)
    ∧ BinaryHeap.add maxComparator [5] 5 = [5, 5] := by
  constructor
  · intro T cmp h x
    unfold BinaryHeap.add
    rw [heapifyUp_length]
    simp
  · decide

/-! ### `find` and `remove` on an absent element -/

theorem findUnderSubtree_eq_nil {T : Type} (cmp : Cmp T) (x : T) :
    ∀ (n : BST.Node T), (∀ y ∈ BST.inorder n, cmp x y ≠ .eq) →
      BST.findUnderSubtree cmp x n = .nil := by
  intro n
  induction n with
  | nil => intro _; rfl
  | node v l r ihl ihr =>
    intro h
    have hv : cmp x v ≠ .eq := h v (by simp [BST.inorder])
    unfold BST.findUnderSubtree
    rw [if_neg hv]
    by_cases hg : cmp x v = .gt
    · rw [if_pos hg]
      cases r with
      | nil => rfl
      | node rv rl rr =>
        exact ihr (fun y hy => h y (by
          simp only [BST.inorder, List.mem_append, List.mem_cons] at hy ⊢
          tauto))
    · rw [if_neg hg]
      by_cases hl : cmp x v = .lt
      · rw [if_pos hl]
        cases l with
        | nil => rfl
        | node lv ll lr =>
          exact ihl (fun y hy => h y (by
            simp only [BST.inorder, List.mem_append, List.mem_cons] at hy ⊢
            tauto))
      · rw [if_neg hl]

theorem removeBelow_eq_none {T : Type} (cmp : Cmp T) (x : T) :
    ∀ (n : BST.Node T), (∀ y ∈ BST.inorder n, cmp x y ≠ .eq) →
      BST.removeBelow cmp x n = none := by
  intro n
  induction n with
  | nil => intro _; rfl
  | node pv pl pr ihl ihr =>
    intro h
    unfold BST.removeBelow
    by_cases hg : cmp x pv = .gt
    · rw [if_pos hg]
      cases pr with
      | nil => rfl
      | node cv cl cr =>
        have hcv : cmp x cv ≠ .eq := h cv (by simp [BST.inorder])
        have hrec := ihr (fun y hy => h y (by
          simp only [BST.inorder, List.mem_append, List.mem_cons] at hy ⊢
          tauto))
        dsimp only
        rw [if_neg hcv, hrec]
        rfl
    · rw [if_neg hg]
      by_cases hl : cmp x pv = .lt
      · rw [if_pos hl]
        cases pl with
        | nil => rfl
        | node cv cl cr =>
          have hcv : cmp x cv ≠ .eq := h cv (by simp [BST.inorder])
          have hrec := ihl (fun y hy => h y (by
            simp only [BST.inorder, List.mem_append, List.mem_cons] at hy ⊢
            tauto))
          dsimp only
          rw [if_neg hcv, hrec]
          rfl
      · rw [if_neg hl]

/-- C9: on any tree and any element with no comparator-equal match, `find`
returns the absent/null result (it has no error outcome at all), while
`remove` signals the distinguishable not-found `RangeError`; the source
throws before performing any write, so the tree is untouched (the embedding
returns no successor state on the error path).  `add` is a total function
and never errors. -/
theorem claim_C9 {T : Type} (cmp : Cmp T) (t : BST.Tree T) (x : T)
    (habs : ∀ y ∈ BST.inorder t.root, cmp x y ≠ .eq) :
    BST.find cmp t x = .nil ∧ BST.remove cmp t x = .error .notFound := by
  constructor
  · obtain ⟨root, sz⟩ := t
    cases root with
    | nil => rfl
    | node v l r =>
      exact findUnderSubtree_eq_nil cmp x _ habs
  · obtain ⟨root, sz⟩ := t
    cases root with
    | nil => rfl
    | node v l r =>
      have habs' : ∀ y ∈ BST.inorder (BST.Node.node v l r), cmp x y ≠ .eq := habs
      have hv : cmp x v ≠ .eq := habs' v (by simp [BST.inorder])
      have hrb := removeBelow_eq_none cmp x _ habs'
      unfold BST.remove
      simp only [if_neg hv, hrb]

/-- Witness for C9 at a concrete input: the element `5` has no equal match
in the tree built from `[2,1,3]`. -/
theorem claim_C9_witness :
    BST.find maxComparator (BST.ofList maxComparator [2,1,3]) 5 = .nil
    ∧ BST.remove maxComparator (BST.ofList maxComparator [2,1,3]) 5
        = .error .notFound :=
  claim_C9 maxComparator (BST.ofList maxComparator [2,1,3]) 5 (by decide)


/-- C1: claimed: after any successful `remove`, `traverseInOrder` still
yields the remaining elements in non-decreasing comparator order.  The code
violates this: removing `5` from the tree built from `[5,3,10,7,8]` (a
two-child case whose in-order successor `7` is not the direct right child)
succeeds, yet the subsequent in-order traversal is `[3,7,8,7,8,10]`, which
is not non-decreasing and repeats the successor and its right child. -/
theorem claim_C1 :
    (BST.remove maxComparator (BST.ofList maxComparator [5,3,10,7,8]) 5).toOption.map
      (fun p => BST.traverseInOrder p.2) = some [3,7,8,7,8,10]
    ∧ ¬ List.Chain' (leC maxComparator) [3,7,8,7,8,10] := by
  refine ⟨by decide, ?_⟩
  simp only [List.chain'_cons, List.chain'_singleton]
  decide

/-- C2: claimed: in the two-child case the successor node is detached and no
longer reachable.  The code violates this when the successor is not the
direct right child: `findMinInTree` returns the successor itself as its own
parent, so `successorParent.left = successor.right` rewires the successor
instead of detaching it.  Removing `5` from the tree built from `[5,3,10,7]`
leaves the successor node `7` reachable: the traversal contains `7` twice
(the copied value and the undetached node). -/
theorem claim_C2 :
    (BST.remove maxComparator (BST.ofList maxComparator [5,3,10,7]) 5).toOption.map
      (fun p => BST.traverseInOrder p.2) = some [3,7,7,10]
    ∧ List.count (7 : Int) [3,7,7,10] = 2 := by
  decide

/-- C3: claimed: both `peek()` and `poll()` throw the empty-heap
`RangeError` on a heap of size 0.  `poll` does, but `peek` is
`return this._heap[0]` with no check: on the empty heap it returns
`undefined` (`none` here) and never throws, contradicting its own doc
comment.  On a non-empty heap `peek` does return the element at index 0,
and, being a pure read, performs no mutation. -/
theorem claim_C3 :
    BinaryHeap.peek ([] : List Int) = none
    ∧ BinaryHeap.poll maxComparator ([] : List Int) = .error .empty
    ∧ BinaryHeap.peek [(3 : Int), 1, 2] = some 3 := by
  decide

/-- C4 counterexample: the claim quantifies over all interleavings of `add`
and `poll`, but an `add` between two polls can insert a higher-priority
element: under the max comparator the run `add 5; poll; add 10; poll`
returns the poll trace `[5, 10]`, which is not non-increasing in
priority. -/
theorem claim_C4_cex :
    runOpsTrace maxComparator [.add 5, .poll, .add 10, .poll] ([] : List Int)
      = some ([], [5, 10])
    ∧ ¬ List.Chain' (geC maxComparator) [5, 10] := by
  refine ⟨by decide, ?_⟩
  simp only [List.chain'_cons, List.chain'_singleton]
  decide

/-- C5: bulk construction copies the array and sifts down every index from
`size-1` to `0`; from `[5,4,3,2,1,0]` with the max comparator repeated
polling yields `5,4,3,2,1,0`, and from `[0,2,4,3,1,5]` with the min
comparator it yields `0,1,2,3,4,5`. -/
theorem claim_C5 :
    pollSeq maxComparator 6 (BinaryHeap.build maxComparator [5,4,3,2,1,0])
      = [5,4,3,2,1,0]
    ∧ pollSeq minComparator 6 (BinaryHeap.build minComparator [0,2,4,3,1,5])
      = [0,1,2,3,4,5] := by
  decide

/-- C7: inserting `[0,-2,-4,-1,2,3]` and exhausting each freshly created
traversal iterator yields exactly the four claimed orders. -/
theorem claim_C7 :
    BST.traversePreOrder (BST.ofList maxComparator [0,-2,-4,-1,2,3])
      = [0,-2,-4,-1,2,3]
    ∧ BST.traverseInOrder (BST.ofList maxComparator [0,-2,-4,-1,2,3])
      = [-4,-2,-1,0,2,3]
    ∧ BST.traversePostOrder (BST.ofList maxComparator [0,-2,-4,-1,2,3])
      = [-4,-1,-2,3,2,0]
    ∧ BST.traverseLevelOrder (BST.ofList maxComparator [0,-2,-4,-1,2,3])
      = [0,-2,2,-4,-1,3] := by
  decide

end DS

namespace DS

/-! ### Derived facts about lawful comparators -/

theorem LawfulCmp.eq_refl {T : Type} {cmp : Cmp T} (hc : LawfulCmp cmp) (a : T) :
    cmp a a = .eq := by
  cases h : cmp a a with
  | eq => rfl
  | lt => exact absurd ((hc.asym a a).mp h) (by rw [h]; intro hx; cases hx)
  | gt => exact absurd ((hc.asym a a).mpr h) (by rw [h]; intro hx; cases hx)

theorem LawfulCmp.le_refl {T : Type} {cmp : Cmp T} (hc : LawfulCmp cmp) (a : T) :
    leC cmp a a := by
  unfold leC
  rw [hc.eq_refl a]
  intro hx
  cases hx

theorem LawfulCmp.ge_iff_le {T : Type} {cmp : Cmp T} (hc : LawfulCmp cmp)
    (a b : T) : geC cmp a b ↔ leC cmp b a := by
  unfold geC leC
  constructor
  · intro h hgt
    exact h ((hc.asym a b).mpr hgt)
  · intro h hlt
    exact h ((hc.asym a b).mp hlt)

theorem LawfulCmp.ge_refl {T : Type} {cmp : Cmp T} (hc : LawfulCmp cmp) (a : T) :
    geC cmp a a :=
  (hc.ge_iff_le a a).mpr (hc.le_refl a)

theorem LawfulCmp.ge_trans {T : Type} {cmp : Cmp T} (hc : LawfulCmp cmp)
    {a b c : T} (h1 : geC cmp a b) (h2 : geC cmp b c) : geC cmp a c :=
  (hc.ge_iff_le a c).mpr
    (hc.le_trans c b a ((hc.ge_iff_le b c).mp h2) ((hc.ge_iff_le a b).mp h1))

theorem LawfulCmp.ge_total {T : Type} {cmp : Cmp T} (hc : LawfulCmp cmp)
    (a b : T) : geC cmp a b ∨ geC cmp b a := by
  by_cases h : cmp a b = .lt
  · right
    unfold geC
    rw [(hc.asym a b).mp h]
    intro hx
    cases hx
  · exact Or.inl h

theorem LawfulCmp.ge_of_not_ge {T : Type} {cmp : Cmp T} (hc : LawfulCmp cmp)
    {a b : T} (h : ¬ geC cmp a b) : geC cmp b a :=
  (hc.ge_total a b).resolve_left h

theorem LawfulCmp.le_of_lt {T : Type} {cmp : Cmp T} (hc : LawfulCmp cmp)
    {a b : T} (h : ltC cmp a b) : leC cmp a b := by
  unfold leC
  rw [h]
  intro hx
  cases hx

theorem LawfulCmp.le_of_eq {T : Type} {cmp : Cmp T} (hc : LawfulCmp cmp)
    {a b : T} (h : cmp a b = .eq) : leC cmp a b := by
  unfold leC
  rw [h]
  intro hx
  cases hx

theorem LawfulCmp.eq_symm {T : Type} {cmp : Cmp T} (hc : LawfulCmp cmp)
    {a b : T} (h : cmp a b = .eq) : cmp b a = .eq := by
  cases hba : cmp b a with
  | eq => rfl
  | lt => rw [(hc.asym b a).mp hba] at h; cases h
  | gt => rw [(hc.asym a b).mpr hba] at h; cases h

theorem LawfulCmp.not_le_iff {T : Type} {cmp : Cmp T} (hc : LawfulCmp cmp)
    {a b : T} : ¬ leC cmp a b ↔ cmp a b = .gt := by
  unfold leC
  constructor
  · intro h
    by_cases hg : cmp a b = .gt
    · exact hg
    · exact absurd hg h
  · intro h hn
    exact hn h

theorem LawfulCmp.lt_of_le_not_le {T : Type} {cmp : Cmp T} (hc : LawfulCmp cmp)
    {a b : T} (h1 : leC cmp a b) (h2 : ¬ leC cmp b a) : ltC cmp a b := by
  have hg : cmp b a = .gt := hc.not_le_iff.mp h2
  exact (hc.asym a b).mpr hg

theorem LawfulCmp.lt_trans {T : Type} {cmp : Cmp T} (hc : LawfulCmp cmp)
    {a b c : T} (h1 : ltC cmp a b) (h2 : ltC cmp b c) : ltC cmp a c := by
  apply hc.lt_of_le_not_le
  · exact hc.le_trans a b c (hc.le_of_lt h1) (hc.le_of_lt h2)
  · intro hca
    have hcb : leC cmp c b := hc.le_trans c a b hca (hc.le_of_lt h1)
    exact hc.not_le_iff.mpr ((hc.asym b c).mp h2) hcb

theorem LawfulCmp.lt_of_lt_of_eq {T : Type} {cmp : Cmp T} (hc : LawfulCmp cmp)
    {a b c : T} (h1 : ltC cmp a b) (h2 : cmp b c = .eq) : ltC cmp a c := by
  apply hc.lt_of_le_not_le
  · exact hc.le_trans a b c (hc.le_of_lt h1) (hc.le_of_eq h2)
  · intro hca
    have hba : leC cmp b a := hc.le_trans b c a (hc.le_of_eq h2) hca
    exact hc.not_le_iff.mpr ((hc.asym a b).mp h1) hba

theorem LawfulCmp.lt_of_eq_of_lt {T : Type} {cmp : Cmp T} (hc : LawfulCmp cmp)
    {a b c : T} (h1 : cmp a b = .eq) (h2 : ltC cmp b c) : ltC cmp a c := by
  apply hc.lt_of_le_not_le
  · exact hc.le_trans a b c (hc.le_of_eq h1) (hc.le_of_lt h2)
  · intro hca
    have hcb : leC cmp c b := hc.le_trans c a b hca (hc.le_of_eq h1)
    exact hc.not_le_iff.mpr ((hc.asym b c).mp h2) hcb

theorem LawfulCmp.ne_eq_of_lt {T : Type} {cmp : Cmp T} (hc : LawfulCmp cmp)
    {a b : T} (h : ltC cmp a b) : cmp a b ≠ .eq := by
  rw [h]
  intro hx
  cases hx

theorem maxComparator_gt_iff (a b : Int) : maxComparator a b = .gt ↔ a > b := by
  unfold maxComparator
  split_ifs with h1 h2 <;> simp <;> omega

theorem maxComparator_lt_iff (a b : Int) : maxComparator a b = .lt ↔ a < b := by
  unfold maxComparator
  split_ifs with h1 h2 <;> simp <;> omega

theorem lawful_maxComparator : LawfulCmp maxComparator := by
  constructor
  · intro a b
    rw [maxComparator_lt_iff, maxComparator_gt_iff]
  · intro a b c h1 h2
    rw [Ne, maxComparator_gt_iff] at h1 h2 ⊢
    omega

theorem minComparator_gt_iff (a b : Int) : minComparator a b = .gt ↔ a < b := by
  unfold minComparator
  split_ifs with h1 h2 <;> simp <;> omega

theorem minComparator_lt_iff (a b : Int) : minComparator a b = .lt ↔ a > b := by
  unfold minComparator
  split_ifs with h1 h2 <;> simp <;> omega

theorem lawful_minComparator : LawfulCmp minComparator := by
  constructor
  · intro a b
    rw [minComparator_lt_iff, minComparator_gt_iff]
  · intro a b c h1 h2
    rw [Ne, minComparator_gt_iff] at h1 h2 ⊢
    omega

end DS

namespace DS

open BST

/-! ### Structure of the dig-left phase of the in-order iterator -/

theorem length_inorder {T : Type} :
    ∀ n : Node T, (inorder n).length = countNodes n := by
  intro n
  induction n with
  | nil => rfl
  | node v l r ihl ihr => simp [inorder, countNodes, ihl, ihr]; omega

theorem remOf_append {T : Type} (A B : List (Node T)) :
    remOf (A ++ B) = remOf A ++ remOf B := by
  unfold remOf
  simp

theorem remOf_cons {T : Type} (n : Node T) (S : List (Node T)) :
    remOf (n :: S) = pendOf n ++ remOf S := by
  unfold remOf
  simp

theorem digLeft_spec {T : Type} :
    ∀ (t : Node T) (S : List (Node T)),
      digLeft S t = (leftSpine t ++ S, deepLeft t) := by
  intro t
  induction t with
  | nil => intro S; rfl
  | node v l r ihl ihr =>
    intro S
    cases l with
    | nil => rfl
    | node lv ll lr =>
      show digLeft (Node.node lv ll lr :: S) (.node lv ll lr) = _
      rw [ihl]
      simp [leftSpine, deepLeft]

theorem spine_inorder {T : Type} :
    ∀ t : Node T, t ≠ .nil → remOf (leftSpine t ++ [t]) = inorder t := by
  intro t
  induction t with
  | nil => intro h; exact absurd rfl h
  | node v l r ihl ihr =>
    intro _
    cases l with
    | nil => simp [leftSpine, remOf, pendOf, inorder]
    | node lv ll lr =>
      have hl := ihl (by intro hx; cases hx)
      show remOf ((leftSpine (.node lv ll lr) ++ [Node.node lv ll lr])
          ++ [Node.node v (.node lv ll lr) r]) = _
      rw [remOf_append, hl]
      simp [inorder, pendOf, remOf]

theorem deepLeft_shape {T : Type} :
    ∀ t : Node T, t ≠ .nil →
      ∃ dv dr, deepLeft t = .node dv .nil dr := by
  intro t
  induction t with
  | nil => intro h; exact absurd rfl h
  | node v l r ihl ihr =>
    intro _
    cases l with
    | nil => exact ⟨v, r, rfl⟩
    | node lv ll lr =>
      obtain ⟨dv, dr, hd⟩ := ihl (by intro hx; cases hx)
      exact ⟨dv, dr, hd⟩

theorem spine_head {T : Type} :
    ∀ t : Node T, t ≠ .nil →
      ∃ D, leftSpine t ++ [t] = deepLeft t :: D := by
  intro t
  induction t with
  | nil => intro h; exact absurd rfl h
  | node v l r ihl ihr =>
    intro _
    cases l with
    | nil => exact ⟨[], by simp [leftSpine, deepLeft]⟩
    | node lv ll lr =>
      obtain ⟨D, hD⟩ := ihl (by intro hx; cases hx)
      refine ⟨D ++ [Node.node v (.node lv ll lr) r], ?_⟩
      show (leftSpine (.node lv ll lr) ++ [Node.node lv ll lr])
          ++ [Node.node v (.node lv ll lr) r] = deepLeft (.node lv ll lr) :: _
      rw [hD]
      simp

theorem spine_nonnil {T : Type} :
    ∀ t : Node T, ∀ n ∈ leftSpine t, n ≠ .nil := by
  intro t
  induction t with
  | nil => intro n hn; cases hn
  | node v l r ihl ihr =>
    intro n hn
    cases l with
    | nil => cases hn
    | node lv ll lr =>
      have : n ∈ leftSpine (Node.node lv ll lr) ++ [Node.node lv ll lr] := hn
      rcases List.mem_append.mp this with h | h
      · exact ihl n h
      · rw [List.mem_singleton.mp h]
        intro hx
        cases hx

theorem leftDone_deepLeft {T : Type} (t : Node T) (ht : t ≠ .nil) :
    leftDone (deepLeft t) := by
  obtain ⟨dv, dr, hd⟩ := deepLeft_shape t ht
  rw [hd]
  trivial

theorem digLeft_noop {T : Type} (S : List (Node T)) (trav : Node T)
    (h : leftDone trav) : digLeft S trav = (S, trav) := by
  cases trav with
  | nil => rfl
  | node v l r =>
    cases l with
    | nil => rfl
    | node lv ll lr => exact absurd h (by intro hx; exact hx)

end DS

namespace DS

open BST

/-- Simulation invariant for `TraverseInOrderIterator`:  either the top of
the stack is the dig point (its whole subtree is still owed, then the rest
of the stack), or the dig-left loop is a no-op and exactly `remOf` of the
stack is owed.  Running the iterator emits precisely the owed output. -/
theorem runInOrder_sim {T : Type} :
    ∀ (fuel : Nat) (S : List (Node T)) (trav : Node T) (out : List T),
      (∀ n ∈ S, n ≠ .nil) →
      ((∃ t rest, S = t :: rest ∧ trav = t ∧ out = inorder t ++ remOf rest) ∨
        (leftDone trav ∧ out = remOf S)) →
      out.length ≤ fuel →
      runIter nextInOrder fuel (S, trav) = out := by
  intro fuel
  induction fuel with
  | zero =>
    intro S trav out hS hinv hlen
    have hm : out = [] := List.length_eq_zero.mp (Nat.le_zero.mp hlen)
    rw [hm]
    rfl
  | succ f ih =>
    intro S trav out hS hinv hlen
    cases S with
    | nil =>
      have hm : out = [] := by
        rcases hinv with ⟨t, rest, hSr, _, _⟩ | ⟨_, ho⟩
        · cases hSr
        · rw [ho]; rfl
      rw [hm]
      rfl
    | cons s0 S' =>
      rcases hinv with ⟨t, rest, hSr, htrav, hout⟩ | ⟨hld, hout⟩
      · -- the stack top is the dig point
        have ht0 : t = s0 := by injection hSr with h1 _; exact h1.symm
        have hr0 : rest = S' := by injection hSr with _ h2; exact h2.symm
        rw [ht0] at htrav
        rw [ht0, hr0] at hout
        rw [htrav]
        have htn : s0 ≠ .nil := hS s0 (by simp)
        obtain ⟨dv, dr, hdl⟩ := deepLeft_shape s0 htn
        obtain ⟨D0, hD0⟩ := spine_head s0 htn
        have hstack : leftSpine s0 ++ s0 :: S' = Node.node dv .nil dr :: (D0 ++ S') := by
          have h3 : leftSpine s0 ++ s0 :: S' = (leftSpine s0 ++ [s0]) ++ S' := by simp
          rw [h3, hD0, hdl]
          simp
        have hdig : digLeft (s0 :: S') s0
            = (Node.node dv .nil dr :: (D0 ++ S'), Node.node dv .nil dr) := by
          rw [digLeft_spec, hstack, hdl]
        have hout2 : out = dv :: (inorder dr ++ remOf (D0 ++ S')) := by
          rw [hout, ← spine_inorder s0 htn, hD0, hdl, remOf_cons, remOf_append]
          simp [pendOf]
        have hD0nn : ∀ n ∈ D0 ++ S', n ≠ .nil := by
          intro n hn
          rcases List.mem_append.mp hn with h | h
          · have hmem : n ∈ leftSpine s0 ++ [s0] := by
              rw [hD0]
              exact List.mem_cons_of_mem _ h
            rcases List.mem_append.mp hmem with h' | h'
            · exact spine_nonnil s0 n h'
            · rw [List.mem_singleton.mp h']; exact htn
          · exact hS n (List.mem_cons_of_mem _ h)
        cases dr with
        | nil =>
          have hnext : nextInOrder (s0 :: S', s0)
              = some (dv, (D0 ++ S', Node.node dv .nil .nil)) := by
            unfold nextInOrder
            simp only [hdig]
          rw [hout2]
          unfold runIter
          rw [hnext]
          refine congrArg (dv :: ·) ?_
          apply ih
          · exact hD0nn
          · right
            constructor
            · trivial
            · simp [inorder]
          · rw [hout2] at hlen
            simp only [List.length_cons] at hlen
            omega
        | node rv rl rr =>
          have hnext : nextInOrder (s0 :: S', s0)
              = some (dv, (Node.node rv rl rr :: (D0 ++ S'), Node.node rv rl rr)) := by
            unfold nextInOrder
            simp only [hdig]
          rw [hout2]
          unfold runIter
          rw [hnext]
          refine congrArg (dv :: ·) ?_
          apply ih
          · intro n hn
            rcases List.mem_cons.mp hn with h | h
            · rw [h]; intro hx; cases hx
            · exact hD0nn n h
          · left
            exact ⟨Node.node rv rl rr, D0 ++ S', rfl, rfl, rfl⟩
          · rw [hout2] at hlen
            simp only [List.length_cons] at hlen
            omega
      · -- the dig-left loop is a no-op
        have hs0 : s0 ≠ .nil := hS s0 (by simp)
        cases s0 with
        | nil => exact absurd rfl hs0
        | node v0 l0 r0 =>
          have hdig : digLeft (Node.node v0 l0 r0 :: S') trav
              = (Node.node v0 l0 r0 :: S', trav) := digLeft_noop _ _ hld
          have hout2 : out = v0 :: (inorder r0 ++ remOf S') := by
            rw [hout, remOf_cons]
            simp [pendOf]
          cases r0 with
          | nil =>
            have hnext : nextInOrder (Node.node v0 l0 .nil :: S', trav)
                = some (v0, (S', trav)) := by
              unfold nextInOrder
              simp only [hdig]
            rw [hout2]
            unfold runIter
            rw [hnext]
            refine congrArg (v0 :: ·) ?_
            apply ih
            · intro n hn
              exact hS n (List.mem_cons_of_mem _ hn)
            · right
              constructor
              · exact hld
              · simp [inorder]
            · rw [hout2] at hlen
              simp only [List.length_cons] at hlen
              omega
          | node rv rl rr =>
            have hnext : nextInOrder (Node.node v0 l0 (.node rv rl rr) :: S', trav)
                = some (v0, (Node.node rv rl rr :: S', Node.node rv rl rr)) := by
              unfold nextInOrder
              simp only [hdig]
            rw [hout2]
            unfold runIter
            rw [hnext]
            refine congrArg (v0 :: ·) ?_
            apply ih
            · intro n hn
              rcases List.mem_cons.mp hn with h | h
              · rw [h]; intro hx; cases hx
              · exact hS n (List.mem_cons_of_mem _ h)
            · left
              exact ⟨Node.node rv rl rr, S', rfl, rfl, rfl⟩
            · rw [hout2] at hlen
              simp only [List.length_cons] at hlen
              omega

/-- Exhausting a fresh in-order iterator emits exactly the recursive
in-order traversal. -/
theorem traverseInOrder_eq_inorder {T : Type} (t : BST.Tree T) :
    BST.traverseInOrder t = inorder t.root := by
  obtain ⟨root, sz⟩ := t
  cases root with
  | nil => rfl
  | node v l r =>
    show runIter nextInOrder (countNodes (.node v l r))
        ([Node.node v l r], .node v l r) = _
    apply runInOrder_sim
    · intro n hn
      rw [List.mem_singleton.mp hn]
      intro hx
      cases hx
    · left
      exact ⟨Node.node v l r, [], rfl, rfl, by simp [remOf]⟩
    · rw [length_inorder]

end DS

namespace DS

open BST

/-! ### Insertion: search-tree invariant, membership, size -/

theorem searchTree_pairwise {T : Type} {cmp : Cmp T} (hc : LawfulCmp cmp) :
    ∀ n : Node T, SearchTree cmp n → List.Pairwise (ltC cmp) (inorder n) := by
  intro n
  induction n with
  | nil => intro _; simp [inorder]
  | node v l r ihl ihr =>
    intro hst
    obtain ⟨hbl, hbr, hstl, hstr⟩ := hst
    simp only [inorder]
    rw [List.pairwise_append]
    refine ⟨ihl hstl, ?_, ?_⟩
    · rw [List.pairwise_cons]
      refine ⟨?_, ihr hstr⟩
      intro y hy
      exact (hc.asym v y).mpr (hbr y hy)
    · intro a ha b hb
      rcases List.mem_cons.mp hb with hbv | hbr'
      · rw [hbv]; exact hbl a ha
      · exact hc.lt_trans (hbl a ha) ((hc.asym v b).mpr (hbr b hbr'))

/-- One-step unfolding of `addUnderSubtree` when descending right. -/
theorem addUnderSubtree_gt {T : Type} (cmp : Cmp T) (x v : T)
    (l : Node T) (rv : T) (rl rr : Node T) (hg : cmp x v = .gt) :
    addUnderSubtree cmp x (.node v l (.node rv rl rr))
      = (.node v l (addUnderSubtree cmp x (.node rv rl rr)).1,
         (addUnderSubtree cmp x (.node rv rl rr)).2) := by
  have h : ∀ p : Node T × Bool, addUnderSubtree cmp x (.node rv rl rr) = p →
      addUnderSubtree cmp x (.node v l (.node rv rl rr))
        = (.node v l p.1, p.2) := by
    intro p hp
    unfold addUnderSubtree
    rw [if_pos hg]
    dsimp only
    rw [hp]
  exact h _ rfl

/-- One-step unfolding of `addUnderSubtree` when descending left. -/
theorem addUnderSubtree_lt {T : Type} (cmp : Cmp T) (x v : T)
    (lv : T) (ll lr : Node T) (r : Node T)
    (hg : cmp x v ≠ .gt) (hl : cmp x v = .lt) :
    addUnderSubtree cmp x (.node v (.node lv ll lr) r)
      = (.node v (addUnderSubtree cmp x (.node lv ll lr)).1 r,
         (addUnderSubtree cmp x (.node lv ll lr)).2) := by
  have h : ∀ p : Node T × Bool, addUnderSubtree cmp x (.node lv ll lr) = p →
      addUnderSubtree cmp x (.node v (.node lv ll lr) r)
        = (.node v p.1 r, p.2) := by
    intro p hp
    unfold addUnderSubtree
    rw [if_neg hg, if_pos hl]
    dsimp only
    rw [hp]
  exact h _ rfl

/-- One-step unfolding of `inorder` at a node. -/
theorem inorder_node {T : Type} (v : T) (l r : Node T) :
    inorder (Node.node v l r) = inorder l ++ v :: inorder r := rfl

set_option maxHeartbeats 1000000 in
theorem addUnderSubtree_spec {T : Type} (cmp : Cmp T) (x : T) :
    ∀ n : Node T, n ≠ .nil →
      ((addUnderSubtree cmp x n).2 = false → (addUnderSubtree cmp x n).1 = n) ∧
      ((addUnderSubtree cmp x n).2 = false → ∃ y ∈ inorder n, cmp x y = .eq) ∧
      (∀ y, y ∈ inorder (addUnderSubtree cmp x n).1 ↔
        (y ∈ inorder n ∨ ((addUnderSubtree cmp x n).2 = true ∧ y = x))) ∧
      ((addUnderSubtree cmp x n).2 = true →
        (inorder (addUnderSubtree cmp x n).1).length = (inorder n).length + 1) := by
  intro n
  induction n with
  | nil => intro h; exact absurd rfl h
  | node v l r ihl ihr =>
    intro _
    by_cases hg : cmp x v = .gt
    · cases r with
      | nil =>
        have hres : addUnderSubtree cmp x (.node v l .nil)
            = (.node v l (.node x .nil .nil), true) := by
          unfold addUnderSubtree
          rw [if_pos hg]
        rw [hres]
        refine ⟨?_, ?_, ?_, ?_⟩
        · intro h; cases h
        · intro h; cases h
        · intro y
          simp only [inorder_node, inorder, List.mem_append, List.mem_cons,
            List.not_mem_nil, List.mem_singleton]
          tauto
        · intro _
          simp [inorder_node, inorder]
      | node rv rl rr =>
        obtain ⟨ih1, ih2, ih3, ih4⟩ := ihr (by intro hx; cases hx)
        rw [addUnderSubtree_gt cmp x v l rv rl rr hg]
        generalize hq : addUnderSubtree cmp x (.node rv rl rr) = q
          at ih1 ih2 ih3 ih4 ⊢
        clear hq
        obtain ⟨q1, q2⟩ := q
        dsimp only at ih1 ih2 ih3 ih4 ⊢
        refine ⟨?_, ?_, ?_, ?_⟩
        · intro h
          rw [ih1 h]
        · intro h
          obtain ⟨y, hy, hyeq⟩ := ih2 h
          refine ⟨y, ?_, hyeq⟩
          rw [inorder_node]
          exact List.mem_append.mpr (Or.inr (List.mem_cons_of_mem _ hy))
        · intro y
          rw [inorder_node, inorder_node]
          constructor
          · intro h
            rcases List.mem_append.mp h with h | h
            · exact Or.inl (List.mem_append.mpr (Or.inl h))
            · rcases List.mem_cons.mp h with h | h
              · exact Or.inl (List.mem_append.mpr (Or.inr (h ▸ List.mem_cons_self _ _)))
              · rcases (ih3 y).mp h with h' | h'
                · exact Or.inl (List.mem_append.mpr (Or.inr (List.mem_cons_of_mem _ h')))
                · exact Or.inr h'
          · intro h
            rcases h with h | h
            · rcases List.mem_append.mp h with h | h
              · exact List.mem_append.mpr (Or.inl h)
              · rcases List.mem_cons.mp h with h | h
                · exact List.mem_append.mpr (Or.inr (h ▸ List.mem_cons_self _ _))
                · exact List.mem_append.mpr
                    (Or.inr (List.mem_cons_of_mem _ ((ih3 y).mpr (Or.inl h))))
            · exact List.mem_append.mpr
                (Or.inr (List.mem_cons_of_mem _ ((ih3 y).mpr (Or.inr h))))
        · intro h
          have h4 := ih4 h
          rw [inorder_node, inorder_node]
          simp only [List.length_append, List.length_cons]
          omega
    · by_cases hl : cmp x v = .lt
      · cases l with
        | nil =>
          have hres : addUnderSubtree cmp x (.node v .nil r)
              = (.node v (.node x .nil .nil) r, true) := by
            unfold addUnderSubtree
            rw [if_neg hg, if_pos hl]
          rw [hres]
          refine ⟨?_, ?_, ?_, ?_⟩
          · intro h; cases h
          · intro h; cases h
          · intro y
            simp only [inorder_node, inorder, List.mem_append, List.mem_cons,
              List.not_mem_nil, List.mem_singleton]
            tauto
          · intro _
            simp [inorder_node, inorder]
        | node lv ll lr =>
          obtain ⟨ih1, ih2, ih3, ih4⟩ := ihl (by intro hx; cases hx)
          rw [addUnderSubtree_lt cmp x v lv ll lr r hg hl]
          generalize hq : addUnderSubtree cmp x (.node lv ll lr) = q
            at ih1 ih2 ih3 ih4 ⊢
          clear hq
          obtain ⟨q1, q2⟩ := q
          dsimp only at ih1 ih2 ih3 ih4 ⊢
          refine ⟨?_, ?_, ?_, ?_⟩
          · intro h
            rw [ih1 h]
          · intro h
            obtain ⟨y, hy, hyeq⟩ := ih2 h
            refine ⟨y, ?_, hyeq⟩
            rw [inorder_node]
            exact List.mem_append.mpr (Or.inl hy)
          · intro y
            rw [inorder_node, inorder_node]
            constructor
            · intro h
              rcases List.mem_append.mp h with h | h
              · rcases (ih3 y).mp h with h' | h'
                · exact Or.inl (List.mem_append.mpr (Or.inl h'))
                · exact Or.inr h'
              · exact Or.inl (List.mem_append.mpr (Or.inr h))
            · intro h
              rcases h with h | h
              · rcases List.mem_append.mp h with h | h
                · exact List.mem_append.mpr (Or.inl ((ih3 y).mpr (Or.inl h)))
                · exact List.mem_append.mpr (Or.inr h)
              · exact List.mem_append.mpr (Or.inl ((ih3 y).mpr (Or.inr h)))
          · intro h
            have h4 := ih4 h
            rw [inorder_node, inorder_node]
            simp only [List.length_append, List.length_cons]
            omega
      · -- comparator returned eq: duplicate, unchanged
        have heq : addUnderSubtree cmp x (.node v l r) = (.node v l r, false) := by
          unfold addUnderSubtree
          rw [if_neg hg, if_neg hl]
        rw [heq]
        have hxv : cmp x v = .eq := by
          cases hcv : cmp x v with
          | eq => rfl
          | gt => exact absurd hcv hg
          | lt => exact absurd hcv hl
        refine ⟨fun _ => rfl, ?_, ?_, ?_⟩
        · intro _
          refine ⟨v, ?_, hxv⟩
          rw [inorder_node]
          exact List.mem_append.mpr (Or.inr (List.mem_cons_self _ _))
        · intro y
          simp
        · intro h; cases h

end DS

namespace DS

open BST

theorem searchTree_nil {T : Type} (cmp : Cmp T) : SearchTree cmp .nil :=
  trivial

theorem searchTree_node {T : Type} (cmp : Cmp T) (v : T) (l r : Node T) :
    SearchTree cmp (Node.node v l r) ↔
      ((∀ y ∈ inorder l, cmp y v = .lt) ∧ (∀ y ∈ inorder r, cmp y v = .gt) ∧
        SearchTree cmp l ∧ SearchTree cmp r) :=
  Iff.rfl

theorem addUnderSubtree_ST {T : Type} (cmp : Cmp T) (x : T) :
    ∀ n : Node T, n ≠ .nil → SearchTree cmp n →
      SearchTree cmp (addUnderSubtree cmp x n).1 := by
  intro n
  induction n with
  | nil => intro h; exact absurd rfl h
  | node v l r ihl ihr =>
    intro _ hst
    obtain ⟨hbl, hbr, hstl, hstr⟩ := (searchTree_node cmp v l r).mp hst
    by_cases hg : cmp x v = .gt
    · cases r with
      | nil =>
        have hres : addUnderSubtree cmp x (.node v l .nil)
            = (.node v l (.node x .nil .nil), true) := by
          unfold addUnderSubtree
          rw [if_pos hg]
        rw [hres]
        rw [searchTree_node]
        refine ⟨hbl, ?_, hstl, ?_⟩
        · intro y hy
          rw [inorder_node] at hy
          simp only [inorder, List.nil_append, List.mem_singleton] at hy
          rw [hy]
          exact hg
        · exact ⟨(by intro y hy; cases hy), (by intro y hy; cases hy),
            trivial, trivial⟩
      | node rv rl rr =>
        have hmem := (addUnderSubtree_spec cmp x (.node rv rl rr)
          (by intro hx; cases hx)).2.2.1
        rw [addUnderSubtree_gt cmp x v l rv rl rr hg]
        dsimp only
        rw [searchTree_node]
        refine ⟨hbl, ?_, hstl, ihr (by intro hx; cases hx) hstr⟩
        intro y hy
        rcases (hmem y).mp hy with h | ⟨_, hyx⟩
        · exact hbr y h
        · rw [hyx]
          exact hg
    · by_cases hl : cmp x v = .lt
      · cases l with
        | nil =>
          have hres : addUnderSubtree cmp x (.node v .nil r)
              = (.node v (.node x .nil .nil) r, true) := by
            unfold addUnderSubtree
            rw [if_neg hg, if_pos hl]
          rw [hres]
          rw [searchTree_node]
          refine ⟨?_, hbr, ?_, hstr⟩
          · intro y hy
            rw [inorder_node] at hy
            simp only [inorder, List.nil_append, List.mem_singleton] at hy
            rw [hy]
            exact hl
          · exact ⟨(by intro y hy; cases hy), (by intro y hy; cases hy),
              trivial, trivial⟩
        | node lv ll lr =>
          have hmem := (addUnderSubtree_spec cmp x (.node lv ll lr)
            (by intro hx; cases hx)).2.2.1
          rw [addUnderSubtree_lt cmp x v lv ll lr r hg hl]
          dsimp only
          rw [searchTree_node]
          refine ⟨?_, hbr, ihl (by intro hx; cases hx) hstl, hstr⟩
          intro y hy
          rcases (hmem y).mp hy with h | ⟨_, hyx⟩
          · exact hbl y h
          · rw [hyx]
            exact hl
      · have heq : addUnderSubtree cmp x (.node v l r) = (.node v l r, false) := by
          unfold addUnderSubtree
          rw [if_neg hg, if_neg hl]
        rw [heq]
        exact hst

theorem addUnderSubtree_dup {T : Type} {cmp : Cmp T} (hc : LawfulCmp cmp)
    (x : T) :
    ∀ n : Node T, SearchTree cmp n → (∃ y ∈ inorder n, cmp x y = .eq) →
      addUnderSubtree cmp x n = (n, false) := by
  intro n
  induction n with
  | nil =>
    intro _ hex
    obtain ⟨y, hy, _⟩ := hex
    cases hy
  | node v l r ihl ihr =>
    intro hst hex
    obtain ⟨hbl, hbr, hstl, hstr⟩ := (searchTree_node cmp v l r).mp hst
    obtain ⟨y, hy, hyeq⟩ := hex
    rw [inorder_node] at hy
    by_cases hg : cmp x v = .gt
    · have hyr : y ∈ inorder r := by
        rcases List.mem_append.mp hy with h | h
        · exfalso
          have hle : leC cmp x v :=
            hc.le_trans x y v (hc.le_of_eq hyeq) (hc.le_of_lt (hbl y h))
          exact hc.not_le_iff.mpr hg hle
        · rcases List.mem_cons.mp h with h | h
          · exfalso
            rw [h] at hyeq
            rw [hyeq] at hg
            cases hg
          · exact h
      cases r with
      | nil => cases hyr
      | node rv rl rr =>
        rw [addUnderSubtree_gt cmp x v l rv rl rr hg]
        rw [ihr hstr ⟨y, hyr, hyeq⟩]
    · by_cases hl : cmp x v = .lt
      · have hyl : y ∈ inorder l := by
          rcases List.mem_append.mp hy with h | h
          · exact h
          · rcases List.mem_cons.mp h with h | h
            · exfalso
              rw [h] at hyeq
              rw [hyeq] at hl
              cases hl
            · exfalso
              have hge : cmp v y = .lt := (hc.asym v y).mpr (hbr y h)
              have hle : leC cmp v x :=
                hc.le_trans v y x (hc.le_of_lt hge)
                  (hc.le_of_eq (hc.eq_symm hyeq))
              have hgt : cmp v x = .gt := (hc.asym x v).mp hl
              exact hc.not_le_iff.mpr hgt hle
        cases l with
        | nil => cases hyl
        | node lv ll lr =>
          rw [addUnderSubtree_lt cmp x v lv ll lr r hg hl]
          rw [ihl hstl ⟨y, hyl, hyeq⟩]
      · unfold addUnderSubtree
        rw [if_neg hg, if_neg hl]

theorem add_spec {T : Type} {cmp : Cmp T} (hc : LawfulCmp cmp)
    (t : BST.Tree T) (x : T)
    (hst : SearchTree cmp t.root)
    (hsz : t.size = (inorder t.root).length) :
    SearchTree cmp (BST.add cmp t x).root
    ∧ (BST.add cmp t x).size = (inorder (BST.add cmp t x).root).length
    ∧ (∀ y ∈ inorder t.root, y ∈ inorder (BST.add cmp t x).root)
    ∧ (∃ y ∈ inorder (BST.add cmp t x).root, cmp x y = .eq)
    ∧ (∀ y ∈ inorder (BST.add cmp t x).root, y ∈ inorder t.root ∨ y = x) := by
  obtain ⟨root, sz⟩ := t
  dsimp only at hst hsz
  cases root with
  | nil =>
    have hres : BST.add cmp ⟨.nil, sz⟩ x
        = ⟨.node x .nil .nil, sz + 1⟩ := rfl
    rw [hres]
    dsimp only
    refine ⟨?_, ?_, ?_, ?_, ?_⟩
    · exact ⟨(by intro y hy; cases hy), (by intro y hy; cases hy),
        trivial, trivial⟩
    · have h0 : sz = 0 := by simpa [inorder] using hsz
      rw [h0]
      rfl
    · intro y hy
      cases hy
    · refine ⟨x, ?_, hc.eq_refl x⟩
      simp [inorder_node, inorder]
    · intro y hy
      simp [inorder_node, inorder] at hy
      exact Or.inr hy
  | node v l r =>
    obtain ⟨s1, s2, s3, s4⟩ :=
      addUnderSubtree_spec cmp x (.node v l r) (by intro hx; cases hx)
    have hres : BST.add cmp ⟨.node v l r, sz⟩ x
        = ⟨(addUnderSubtree cmp x (.node v l r)).1,
            if (addUnderSubtree cmp x (.node v l r)).2 then sz + 1 else sz⟩ := by
      unfold BST.add
      dsimp only
    rw [hres]
    dsimp only
    refine ⟨?_, ?_, ?_, ?_, ?_⟩
    · exact addUnderSubtree_ST cmp x _ (by intro hx; cases hx) hst
    · cases hr2 : (addUnderSubtree cmp x (.node v l r)).2 with
      | true =>
        rw [s4 hr2, hsz]
        simp
      | false =>
        rw [s1 hr2, hsz]
        simp
    · intro y hy
      exact (s3 y).mpr (Or.inl hy)
    · cases hr2 : (addUnderSubtree cmp x (.node v l r)).2 with
      | true =>
        exact ⟨x, (s3 x).mpr (Or.inr ⟨hr2, rfl⟩), hc.eq_refl x⟩
      | false =>
        obtain ⟨y, hy, hyeq⟩ := s2 hr2
        exact ⟨y, (s3 y).mpr (Or.inl hy), hyeq⟩
    · intro y hy
      rcases (s3 y).mp hy with h | ⟨_, hyx⟩
      · exact Or.inl h
      · exact Or.inr hyx

theorem ofList_append_one {T : Type} (cmp : Cmp T) (ys : List T) (x : T) :
    BST.ofList cmp (ys ++ [x]) = BST.add cmp (BST.ofList cmp ys) x := by
  unfold BST.ofList
  rw [List.foldl_append]
  rfl

theorem ofList_spec {T : Type} {cmp : Cmp T} (hc : LawfulCmp cmp)
    (xs : List T) :
    SearchTree cmp (BST.ofList cmp xs).root
    ∧ (BST.ofList cmp xs).size = (inorder (BST.ofList cmp xs).root).length
    ∧ (∀ x ∈ xs, ∃ y ∈ inorder (BST.ofList cmp xs).root, cmp x y = .eq)
    ∧ (∀ y ∈ inorder (BST.ofList cmp xs).root, y ∈ xs) := by
  induction xs using List.reverseRecOn with
  | nil =>
    refine ⟨trivial, rfl, ?_, ?_⟩
    · intro x hx
      cases hx
    · intro y hy
      cases hy
  | append_singleton ys x ih =>
    obtain ⟨ih1, ih2, ih3, ih4⟩ := ih
    obtain ⟨a1, a2, a3, a4, a5⟩ := add_spec hc (BST.ofList cmp ys) x ih1 ih2
    rw [ofList_append_one]
    refine ⟨a1, a2, ?_, ?_⟩
    · intro z hz
      rcases List.mem_append.mp hz with h | h
      · obtain ⟨y, hy, hyeq⟩ := ih3 z h
        exact ⟨y, a3 y hy, hyeq⟩
      · rw [List.mem_singleton.mp h]
        exact a4
    · intro y hy
      rcases a5 y hy with h | h
      · exact List.mem_append.mpr (Or.inl (ih4 y h))
      · exact List.mem_append.mpr (Or.inr (by rw [h]; exact List.mem_singleton_self x))

theorem add_dup_tree {T : Type} {cmp : Cmp T} (hc : LawfulCmp cmp)
    (t : BST.Tree T) (x : T) (hst : SearchTree cmp t.root)
    (hex : ∃ y ∈ inorder t.root, cmp x y = .eq) :
    BST.add cmp t x = t := by
  obtain ⟨root, sz⟩ := t
  dsimp only at hst hex
  cases root with
  | nil =>
    obtain ⟨y, hy, _⟩ := hex
    cases hy
  | node v l r =>
    have hdup := addUnderSubtree_dup hc x (.node v l r) hst hex
    unfold BST.add
    dsimp only
    rw [hdup]
    rfl

/-- C8: over any consistent comparator and any insertion sequence, the
in-order iterator emits a strictly increasing (hence non-decreasing and
duplicate-free) sequence; the size counter equals the number of emitted
values; every inserted value has a comparator-equal representative in the
output and every output value was inserted; and adding an element equal to
a stored one returns the tree unchanged (same root, same size) without an
error. -/
theorem claim_C8 {T : Type} (cmp : Cmp T) (hc : LawfulCmp cmp) (xs : List T) :
    List.Pairwise (ltC cmp) (BST.traverseInOrder (BST.ofList cmp xs))
    ∧ List.Chain' (leC cmp) (BST.traverseInOrder (BST.ofList cmp xs))
    ∧ (BST.ofList cmp xs).size = (BST.traverseInOrder (BST.ofList cmp xs)).length
    ∧ (∀ x ∈ xs, ∃ y ∈ BST.traverseInOrder (BST.ofList cmp xs), cmp x y = .eq)
    ∧ (∀ y ∈ BST.traverseInOrder (BST.ofList cmp xs), y ∈ xs)
    ∧ (∀ x, (∃ y ∈ BST.traverseInOrder (BST.ofList cmp xs), cmp x y = .eq) →
        BST.add cmp (BST.ofList cmp xs) x = BST.ofList cmp xs) := by
  obtain ⟨h1, h2, h3, h4⟩ := ofList_spec hc xs
  rw [traverseInOrder_eq_inorder]
  have hpw := searchTree_pairwise hc _ h1
  refine ⟨hpw, ?_, h2, h3, h4, ?_⟩
  · exact (hpw.chain').imp (fun {a b} h => hc.le_of_lt h)
  · intro x hex
    exact add_dup_tree hc _ x h1 hex

/-- Witness for C8 at the concrete input `[2,1,2,3]` under the tests'
numeric comparator. -/
theorem claim_C8_witness :
    List.Pairwise (ltC maxComparator)
      (BST.traverseInOrder (BST.ofList maxComparator [2,1,2,3]))
    ∧ List.Chain' (leC maxComparator)
      (BST.traverseInOrder (BST.ofList maxComparator [2,1,2,3]))
    ∧ (BST.ofList maxComparator [2,1,2,3]).size
      = (BST.traverseInOrder (BST.ofList maxComparator [2,1,2,3])).length
    ∧ (∀ x ∈ [(2:Int),1,2,3], ∃ y ∈ BST.traverseInOrder
        (BST.ofList maxComparator [2,1,2,3]), maxComparator x y = .eq)
    ∧ (∀ y ∈ BST.traverseInOrder (BST.ofList maxComparator [2,1,2,3]),
        y ∈ [(2:Int),1,2,3])
    ∧ (∀ x, (∃ y ∈ BST.traverseInOrder (BST.ofList maxComparator [2,1,2,3]),
          maxComparator x y = .eq) →
        BST.add maxComparator (BST.ofList maxComparator [2,1,2,3]) x
          = BST.ofList maxComparator [2,1,2,3]) :=
  claim_C8 maxComparator lawful_maxComparator [2,1,2,3]

end DS

namespace DS

open BinaryHeap

/-! ### Heap index arithmetic and swap access -/

theorem parentIndexOf_pos {i : Nat} (h : i ≠ 0) :
    parentIndexOf i = some ((i - 1) / 2) := by
  unfold parentIndexOf
  rw [if_neg h]
  by_cases he : i % 2 = 0
  · rw [if_pos he]
    congr 1
    omega
  · rw [if_neg he]

theorem child_of_parentIdx {i : Nat} (h : i ≠ 0) :
    i = 2 * ((i - 1) / 2) + 1 ∨ i = 2 * ((i - 1) / 2) + 2 := by
  omega

theorem parentIdx_lt {i : Nat} (h : i ≠ 0) : (i - 1) / 2 < i := by
  omega

theorem parentIdx_unique {i j p : Nat}
    (h : j = 2*i+1 ∨ j = 2*i+2) (h2 : j = 2*p+1 ∨ j = 2*p+2) : i = p := by
  omega

theorem getElem?_swap {T : Type} (l : List T) (i j : Nat)
    (hi : i < l.length) (hj : j < l.length) (k : Nat) :
    (swap l i j)[k]? = if k = i then l[j]?
      else if k = j then l[i]? else l[k]? := by
  obtain ⟨a, ha⟩ : ∃ a, l[i]? = some a := by
    rw [List.getElem?_eq_getElem hi]
    exact ⟨_, rfl⟩
  obtain ⟨b, hb⟩ : ∃ b, l[j]? = some b := by
    rw [List.getElem?_eq_getElem hj]
    exact ⟨_, rfl⟩
  unfold swap
  rw [ha, hb]
  rw [List.getElem?_set, List.getElem?_set, List.length_set]
  split_ifs with h1 h2 h3 h4 h5 h6 h7 h8 <;>
    first
      | rfl
      | omega
      | (subst_vars; rw [← ha]; rfl)
      | (subst_vars; rw [← hb]; rfl)
      | (subst_vars; rw [← ha, ← hb])

theorem length_swap {T : Type} (l : List T) (i j : Nat) :
    (swap l i j).length = l.length := swap_length l i j

end DS

namespace DS

open BinaryHeap

theorem hph_true_iff {T : Type} (cmp : Cmp T) (p c : T) :
    heapPropertyHolds cmp p c = true ↔ geC cmp p c := by
  unfold heapPropertyHolds geC
  cases hcmp : cmp p c <;> simp <;> decide

theorem hph_false_iff {T : Type} (cmp : Cmp T) (p c : T) :
    heapPropertyHolds cmp p c = false ↔ cmp p c = .lt := by
  unfold heapPropertyHolds
  cases hcmp : cmp p c <;> simp <;> decide

theorem parentIndexOf_lt {k pk : Nat} (hp : parentIndexOf k = some pk) :
    pk < k ∧ (k = 2*pk+1 ∨ k = 2*pk+2) := by
  have hk0 : k ≠ 0 := by
    intro h
    rw [h] at hp
    cases hp
  rw [parentIndexOf_pos hk0] at hp
  injection hp with h
  omega

theorem getElem?_set_set {T : Type} (l : List T) (i j : Nat) (a b : T)
    (hij : i ≠ j) (k : Nat) :
    ((l.set i a).set j b)[k]? =
      if k = i then (if i < l.length then some a else none)
      else if k = j then (if j < l.length then some b else none)
      else l[k]? := by
  rw [List.getElem?_set, List.getElem?_set, List.length_set]
  split_ifs <;> first | rfl | omega

theorem HeapExceptUp.toAt {T : Type} {cmp : Cmp T} {l : List T} {k : Nat}
    (h : HeapExceptUp cmp l k) : HeapExceptAt cmp l k :=
  fun i j x y hj _ hjk hx hy => h i j x y hj hjk hx hy

/-- One swap of the sift-up loop: after exchanging the violating pair, the
stack of invariants moves from `k` up to its parent `pk`. -/
theorem upStep_inv {T : Type} {cmp : Cmp T} (hc : LawfulCmp cmp)
    (l : List T) (k pk : Nat) (cur p : T)
    (hpchild : k = 2*pk+1 ∨ k = 2*pk+2)
    (hk : l[k]? = some cur) (hv : l[pk]? = some p)
    (hlt : cmp p cur = .lt)
    (hA : HeapExceptAt cmp l k) (hCov : Covered cmp l k) :
    ((l.set pk cur).set k p)[pk]? = some cur
    ∧ HeapExceptUp cmp ((l.set pk cur).set k p) pk
    ∧ Covered cmp ((l.set pk cur).set k p) pk := by
  have hkn : k < l.length := (List.getElem?_eq_some.mp hk).1
  have hpn : pk < l.length := by omega
  have hne : pk ≠ k := by omega
  have haccP : ((l.set pk cur).set k p)[pk]? = some cur := by
    rw [getElem?_set_set l pk k cur p hne pk, if_pos rfl, if_pos hpn]
  have haccK : ((l.set pk cur).set k p)[k]? = some p := by
    rw [getElem?_set_set l pk k cur p hne k, if_neg (by omega), if_pos rfl,
      if_pos hkn]
  have haccO : ∀ m, m ≠ pk → m ≠ k →
      ((l.set pk cur).set k p)[m]? = l[m]? := by
    intro m h1 h2
    rw [getElem?_set_set l pk k cur p hne m, if_neg h1, if_neg h2]
  have hgecp : geC cmp cur p := by
    apply hc.ge_of_not_ge
    intro hg
    exact hg hlt
  refine ⟨haccP, ?_, ?_⟩
  · -- HeapExceptUp at pk after the swap
    intro i j x y hj hjpk hx hy
    by_cases hjk : j = k
    · subst hjk
      have hipk : i = pk := parentIdx_unique hj hpchild
      subst hipk
      rw [haccP] at hx
      rw [haccK] at hy
      injection hx with hx
      injection hy with hy
      rw [← hx, ← hy]
      exact hgecp
    · rw [haccO j hjpk hjk] at hy
      by_cases hipk : i = pk
      · subst hipk
        rw [haccP] at hx
        injection hx with hx
        rw [← hx]
        -- sibling of k below pk: old edge (pk, j) plus transitivity
        have hold : geC cmp p y := hA i j p y hj (by omega) hjk hv hy
        exact hc.ge_trans hgecp hold
      · by_cases hik : i = k
        · subst hik
          rw [haccK] at hx
          injection hx with hx
          rw [← hx]
          -- children of k: covered by the old parent value
          exact hCov pk j p y hpchild hj hv hy
        · rw [haccO i hipk hik] at hx
          exact hA i j x y hj hik hjk hx hy
  · -- Covered at pk after the swap
    intro g c x y hgp hcc hx hy
    have hgne : g ≠ pk ∧ g ≠ k := by omega
    rw [haccO g hgne.1 hgne.2] at hx
    have hgpk : geC cmp x p := by
      apply hA g pk x p hgp (by omega) (by omega) hx hv
    by_cases hck : c = k
    · subst hck
      rw [haccK] at hy
      injection hy with hy
      rw [← hy]
      exact hgpk
    · have hcne : c ≠ pk := by omega
      rw [haccO c hcne hck] at hy
      -- grandparent to sibling: through the old parent value
      have hps : geC cmp p y := hA pk c p y hcc (by omega) hck hv hy
      exact hc.ge_trans hgpk hps

set_option maxHeartbeats 800000 in
theorem heapifyUpGo_heap {T : Type} {cmp : Cmp T} (hc : LawfulCmp cmp)
    (cur : T) :
    ∀ fuel (l : List T) (k : Nat), k ≤ fuel → l[k]? = some cur →
      HeapExceptUp cmp l k → Covered cmp l k →
      IsHeap cmp (heapifyUpGo cmp cur fuel l k).1 := by
  intro fuel
  induction fuel with
  | zero =>
    intro l k hfuel hk hHEU hCov
    have hk0 : k = 0 := Nat.le_zero.mp hfuel
    subst hk0
    intro i j x y hj hx hy
    exact hHEU i j x y hj (by omega) hx hy
  | succ f ih =>
    intro l k hfuel hk hHEU hCov
    unfold heapifyUpGo
    cases hp : parentIndexOf k with
    | none =>
      simp only [hp]
      have hk0 : k = 0 := by
        by_contra h
        rw [parentIndexOf_pos h] at hp
        cases hp
      subst hk0
      intro i j x y hj hx hy
      exact hHEU i j x y hj (by omega) hx hy
    | some pk =>
      simp only [hp]
      obtain ⟨hplt, hpchild⟩ := parentIndexOf_lt hp
      cases hv : l[pk]? with
      | none =>
        exfalso
        have hkn : k < l.length := (List.getElem?_eq_some.mp hk).1
        have hpn : pk < l.length := by omega
        rw [List.getElem?_eq_getElem hpn] at hv
        cases hv
      | some p =>
        simp only [hv]
        by_cases hh : heapPropertyHolds cmp p cur
        · rw [if_pos hh]
          have hge : geC cmp p cur := (hph_true_iff cmp p cur).mp hh
          intro i j x y hj hx hy
          by_cases hjk : j = k
          · subst hjk
            have hipk : i = pk := parentIdx_unique hj hpchild
            subst hipk
            rw [hv] at hx
            rw [hk] at hy
            injection hx with hx
            injection hy with hy
            rw [← hx, ← hy]
            exact hge
          · exact hHEU i j x y hj hjk hx hy
        · rw [if_neg hh]
          have hlt : cmp p cur = .lt :=
            (hph_false_iff cmp p cur).mp (by
              cases hb : heapPropertyHolds cmp p cur
              · rfl
              · exact absurd hb hh)
          obtain ⟨h1, h2, h3⟩ :=
            upStep_inv hc l k pk cur p hpchild hk hv hlt hHEU.toAt hCov
          exact ih _ pk (by omega) h1 h2 h3

end DS

namespace DS

open BinaryHeap

theorem heapifyUpGo_le {T : Type} (cmp : Cmp T) (cur : T) :
    ∀ fuel (l : List T) (k : Nat), (heapifyUpGo cmp cur fuel l k).2 ≤ k := by
  intro fuel
  induction fuel with
  | zero => intro l k; exact Nat.le_refl k
  | succ f ih =>
    intro l k
    unfold heapifyUpGo
    cases hp : parentIndexOf k with
    | none => simp [hp]
    | some pk =>
      simp only [hp]
      obtain ⟨hplt, _⟩ := parentIndexOf_lt hp
      cases hv : l[pk]? with
      | none => simp [hv]
      | some parent =>
        simp only [hv]
        by_cases hh : heapPropertyHolds cmp parent cur
        · simp [hh]
        · rw [if_neg hh]
          exact Nat.le_of_lt (Nat.lt_of_le_of_lt (ih _ pk) hplt)

/-- The conditional structure of heap `remove` around `heapifyUp`: starting
from a state whose only unknown slot is `k` (but whose parent, if any,
outranks `k`'s children), either the sift-up moved the element and the full
heap property already holds, or nothing moved and a sift-down from `k` is
the exact missing repair. -/
theorem heapifyUp_master {T : Type} {cmp : Cmp T} (hc : LawfulCmp cmp)
    (l : List T) (k : Nat) (cur : T)
    (hk : l[k]? = some cur) (hA : HeapExceptAt cmp l k)
    (hCov : Covered cmp l k) :
    ((heapifyUp cmp l k).2 ≠ k → IsHeap cmp (heapifyUp cmp l k).1)
    ∧ ((heapifyUp cmp l k).2 = k →
        (heapifyUp cmp l k).1 = l ∧ HeapExceptDown cmp l k) := by
  unfold heapifyUp
  rw [hk]
  cases k with
  | zero =>
    constructor
    · intro h
      exact absurd rfl h
    · intro _
      refine ⟨rfl, ?_⟩
      intro i j x y hj hik hx hy
      exact hA i j x y hj hik (by omega) hx hy
  | succ k0 =>
    unfold heapifyUpGo
    rw [parentIndexOf_pos (Nat.succ_ne_zero k0)]
    have hpchild : k0 + 1 = 2*((k0+1-1)/2)+1 ∨ k0 + 1 = 2*((k0+1-1)/2)+2 := by
      omega
    have hplt : (k0+1-1)/2 < k0 + 1 := by omega
    cases hv : l[(k0+1-1)/2]? with
    | none =>
      exfalso
      have hkn : k0 + 1 < l.length := (List.getElem?_eq_some.mp hk).1
      have hpn : (k0+1-1)/2 < l.length := by omega
      rw [List.getElem?_eq_getElem hpn] at hv
      cases hv
    | some p =>
      simp only [hv]
      by_cases hh : heapPropertyHolds cmp p cur
      · rw [if_pos hh]
        have hge : geC cmp p cur := (hph_true_iff cmp p cur).mp hh
        constructor
        · intro h
          exact absurd rfl h
        · intro _
          refine ⟨rfl, ?_⟩
          intro i j x y hj hik hx hy
          by_cases hjk : j = k0 + 1
          · subst hjk
            have hipk : i = (k0+1-1)/2 := parentIdx_unique hj hpchild
            subst hipk
            rw [hv] at hx
            rw [hk] at hy
            injection hx with hx
            injection hy with hy
            rw [← hx, ← hy]
            exact hge
          · exact hA i j x y hj hik hjk hx hy
      · rw [if_neg hh]
        have hlt : cmp p cur = .lt :=
          (hph_false_iff cmp p cur).mp (by
            cases hb : heapPropertyHolds cmp p cur
            · rfl
            · exact absurd hb hh)
        obtain ⟨h1, h2, h3⟩ :=
          upStep_inv hc l (k0+1) ((k0+1-1)/2) cur p hpchild hk hv hlt hA hCov
        constructor
        · intro _
          exact heapifyUpGo_heap hc cur k0 _ _ (by omega) h1 h2 h3
        · intro hmoved
          exfalso
          have hmono := heapifyUpGo_le cmp cur k0
            ((l.set ((k0+1-1)/2) cur).set (k0+1) p) ((k0+1-1)/2)
          rw [hmoved] at hmono
          omega

end DS

namespace DS

open BinaryHeap

theorem getElem?_none_of_len {T : Type} {l : List T} {j : Nat}
    (h : l[j]? = none) : l.length ≤ j := by
  by_contra hlt
  rw [List.getElem?_eq_getElem (by omega)] at h
  cases h

/-- One swap of the sift-down loop: after exchanging the current element
with the selected child, the invariants move from `k` down to that child's
index. -/
theorem downSwap_inv {T : Type} {cmp : Cmp T} (hc : LawfulCmp cmp)
    (l : List T) (k tsi : Nat) (cur cv : T)
    (htc : tsi = 2*k+1 ∨ tsi = 2*k+2)
    (hk : l[k]? = some cur) (htv : l[tsi]? = some cv)
    (hgecur : geC cmp cv cur)
    (hgesib : ∀ s y, (s = 2*k+1 ∨ s = 2*k+2) → s ≠ tsi → l[s]? = some y →
      geC cmp cv y)
    (hHED : HeapExceptDown cmp l k) (hCov : Covered cmp l k) :
    (swap l tsi k)[tsi]? = some cur
    ∧ HeapExceptDown cmp (swap l tsi k) tsi
    ∧ Covered cmp (swap l tsi k) tsi := by
  have hkn : k < l.length := (List.getElem?_eq_some.mp hk).1
  have htn : tsi < l.length := (List.getElem?_eq_some.mp htv).1
  have hne : tsi ≠ k := by omega
  have haccT : (swap l tsi k)[tsi]? = some cur := by
    rw [getElem?_swap l tsi k htn hkn tsi, if_pos rfl, hk]
  have haccK : (swap l tsi k)[k]? = some cv := by
    rw [getElem?_swap l tsi k htn hkn k, if_neg (by omega), if_pos rfl, htv]
  have haccO : ∀ m, m ≠ tsi → m ≠ k → (swap l tsi k)[m]? = l[m]? := by
    intro m h1 h2
    rw [getElem?_swap l tsi k htn hkn m, if_neg h1, if_neg h2]
  refine ⟨haccT, ?_, ?_⟩
  · intro i j x y hj hitsi hx hy
    by_cases hik : i = k
    · subst hik
      by_cases hjt : j = tsi
      · subst hjt
        rw [haccK] at hx
        rw [haccT] at hy
        injection hx with hx
        injection hy with hy
        rw [← hx, ← hy]
        exact hgecur
      · have hjne : j ≠ i := by omega
        rw [haccK] at hx
        rw [haccO j hjt hjne] at hy
        injection hx with hx
        rw [← hx]
        exact hgesib j y hj hjt hy
    · by_cases hjk : j = k
      · rw [hjk] at hj hy
        rw [haccK] at hy
        injection hy with hy
        rw [← hy]
        rw [haccO i hitsi hik] at hx
        exact hCov i tsi x cv hj htc hx htv
      · by_cases hjt : j = tsi
        · exfalso
          have : i = k := parentIdx_unique (hjt ▸ hj) htc
          exact hik this
        · rw [haccO i hitsi hik] at hx
          rw [haccO j hjt hjk] at hy
          exact hHED i j x y hj hik hx hy
  · intro p2 c x y hp2 hcc hx hy
    have hp2k : p2 = k := parentIdx_unique hp2 htc
    subst hp2k
    rw [haccK] at hx
    injection hx with hx
    rw [← hx]
    have hcne : c ≠ tsi ∧ c ≠ p2 := by omega
    rw [haccO c hcne.1 hcne.2] at hy
    exact hHED tsi c cv y hcc (by omega) htv hy

end DS

namespace DS

open BinaryHeap

theorem hph_eq_false {T : Type} {cmp : Cmp T} {p c : T}
    (h : ¬ heapPropertyHolds cmp p c = true) :
    heapPropertyHolds cmp p c = false := by
  cases hb : heapPropertyHolds cmp p c
  · rfl
  · exact absurd hb h

theorem ge_flip_of_violated {T : Type} {cmp : Cmp T} (hc : LawfulCmp cmp)
    {p c : T} (h : heapPropertyHolds cmp p c = false) : geC cmp c p := by
  have hlt : cmp p c = .lt := (hph_false_iff cmp p c).mp h
  exact hc.ge_of_not_ge (fun hg => hg hlt)

set_option maxHeartbeats 1600000 in
theorem heapifyDownGo_heap {T : Type} {cmp : Cmp T} (hc : LawfulCmp cmp)
    (cur : T) :
    ∀ fuel (l : List T) (k : Nat), l.length ≤ fuel + k → l[k]? = some cur →
      HeapExceptDown cmp l k → Covered cmp l k →
      IsHeap cmp (heapifyDownGo cmp cur fuel l k).1 := by
  intro fuel
  induction fuel with
  | zero =>
    intro l k hfuel hk hHED hCov
    exfalso
    have := (List.getElem?_eq_some.mp hk).1
    omega
  | succ f ih =>
    intro l k hfuel hk hHED hCov
    have hkn : k < l.length := (List.getElem?_eq_some.mp hk).1
    unfold heapifyDownGo
    cases hlc : l[2*k+1]? with
    | none =>
      have hlen1 : l.length ≤ 2*k+1 := getElem?_none_of_len hlc
      have hrcn : l[2*k+2]? = none := List.getElem?_eq_none (by omega)
      simp only [hlc, hrcn]
      rw [if_neg (by simp)]
      intro i j x y hj hx hy
      by_cases hik : i = k
      · exfalso
        have : j < l.length := (List.getElem?_eq_some.mp hy).1
        omega
      · exact hHED i j x y hj hik hx hy
    | some lcv =>
      have hlcn : 2*k+1 < l.length := (List.getElem?_eq_some.mp hlc).1
      cases hrc : l[2*k+2]? with
      | none =>
        simp only [hlc, hrc]
        have hlen2 : l.length ≤ 2*k+2 := getElem?_none_of_len hrc
        by_cases hvl : heapPropertyHolds cmp cur lcv = true
        · rw [if_neg (by simp [hvl])]
          intro i j x y hj hx hy
          by_cases hik : i = k
          · subst hik
            rcases hj with hj | hj
            · subst hj
              rw [hk] at hx
              rw [hlc] at hy
              injection hx with hx
              injection hy with hy
              rw [← hx, ← hy]
              exact (hph_true_iff cmp cur lcv).mp hvl
            · exfalso
              subst hj
              have : 2*i+2 < l.length := (List.getElem?_eq_some.mp hy).1
              omega
          · exact hHED i j x y hj hik hx hy
        · have hvl' := hph_eq_false hvl
          rw [if_pos (by simp [hvl'])]
          have hgecur : geC cmp lcv cur := ge_flip_of_violated hc hvl'
          have hgesib : ∀ s y, (s = 2*k+1 ∨ s = 2*k+2) → s ≠ 2*k+1 →
              l[s]? = some y → geC cmp lcv y := by
            intro s y hs hsne hy
            exfalso
            have : s = 2*k+2 := by omega
            rw [this, hrc] at hy
            cases hy
          obtain ⟨d1, d2, d3⟩ := downSwap_inv hc l k (2*k+1) cur lcv
            (Or.inl rfl) hk hlc hgecur hgesib hHED hCov
          apply ih _ (2*k+1) _ d1 d2 d3
          rw [length_swap]
          omega
      | some rcv =>
        have hrcn2 : 2*k+2 < l.length := (List.getElem?_eq_some.mp hrc).1
        simp only [hlc, hrc]
        by_cases hvl : heapPropertyHolds cmp cur lcv = true
        · by_cases hvr : heapPropertyHolds cmp cur rcv = true
          · rw [if_neg (by simp [hvl, hvr])]
            intro i j x y hj hx hy
            by_cases hik : i = k
            · subst hik
              rcases hj with hj | hj
              · subst hj
                rw [hk] at hx
                rw [hlc] at hy
                injection hx with hx
                injection hy with hy
                rw [← hx, ← hy]
                exact (hph_true_iff cmp cur lcv).mp hvl
              · subst hj
                rw [hk] at hx
                rw [hrc] at hy
                injection hx with hx
                injection hy with hy
                rw [← hx, ← hy]
                exact (hph_true_iff cmp cur rcv).mp hvr
            · exact hHED i j x y hj hik hx hy
          · -- only the right child is violated
            have hvr' := hph_eq_false hvr
            rw [if_pos (by simp [hvr'])]
            by_cases hsel : heapPropertyHolds cmp lcv rcv = true
            · rw [if_pos hsel]
              have hgelr : geC cmp lcv rcv := (hph_true_iff cmp lcv rcv).mp hsel
              have hgecur : geC cmp lcv cur :=
                hc.ge_trans hgelr (ge_flip_of_violated hc hvr')
              have hgesib : ∀ s y, (s = 2*k+1 ∨ s = 2*k+2) → s ≠ 2*k+1 →
                  l[s]? = some y → geC cmp lcv y := by
                intro s y hs hsne hy
                have : s = 2*k+2 := by omega
                rw [this, hrc] at hy
                injection hy with hy
                rw [← hy]
                exact hgelr
              obtain ⟨d1, d2, d3⟩ := downSwap_inv hc l k (2*k+1) cur lcv
                (Or.inl rfl) hk hlc hgecur hgesib hHED hCov
              apply ih _ (2*k+1) _ d1 d2 d3
              rw [length_swap]
              omega
            · rw [if_neg hsel]
              have hgerl : geC cmp rcv lcv :=
                ge_flip_of_violated hc (hph_eq_false hsel)
              have hgecur : geC cmp rcv cur :=
                ge_flip_of_violated hc hvr'
              have hgesib : ∀ s y, (s = 2*k+1 ∨ s = 2*k+2) → s ≠ 2*k+2 →
                  l[s]? = some y → geC cmp rcv y := by
                intro s y hs hsne hy
                have : s = 2*k+1 := by omega
                rw [this, hlc] at hy
                injection hy with hy
                rw [← hy]
                exact hgerl
              obtain ⟨d1, d2, d3⟩ := downSwap_inv hc l k (2*k+2) cur rcv
                (Or.inr rfl) hk hrc hgecur hgesib hHED hCov
              apply ih _ (2*k+2) _ d1 d2 d3
              rw [length_swap]
              omega
        · -- the left child is violated
          have hvl' := hph_eq_false hvl
          rw [if_pos (by simp [hvl'])]
          have hgelcur : geC cmp lcv cur := ge_flip_of_violated hc hvl'
          by_cases hsel : heapPropertyHolds cmp lcv rcv = true
          · rw [if_pos hsel]
            have hgelr : geC cmp lcv rcv := (hph_true_iff cmp lcv rcv).mp hsel
            have hgesib : ∀ s y, (s = 2*k+1 ∨ s = 2*k+2) → s ≠ 2*k+1 →
                l[s]? = some y → geC cmp lcv y := by
              intro s y hs hsne hy
              have : s = 2*k+2 := by omega
              rw [this, hrc] at hy
              injection hy with hy
              rw [← hy]
              exact hgelr
            obtain ⟨d1, d2, d3⟩ := downSwap_inv hc l k (2*k+1) cur lcv
              (Or.inl rfl) hk hlc hgelcur hgesib hHED hCov
            apply ih _ (2*k+1) _ d1 d2 d3
            rw [length_swap]
            omega
          · rw [if_neg hsel]
            have hgerl : geC cmp rcv lcv :=
              ge_flip_of_violated hc (hph_eq_false hsel)
            have hgecur : geC cmp rcv cur := hc.ge_trans hgerl hgelcur
            have hgesib : ∀ s y, (s = 2*k+1 ∨ s = 2*k+2) → s ≠ 2*k+2 →
                l[s]? = some y → geC cmp rcv y := by
              intro s y hs hsne hy
              have : s = 2*k+1 := by omega
              rw [this, hlc] at hy
              injection hy with hy
              rw [← hy]
              exact hgerl
            obtain ⟨d1, d2, d3⟩ := downSwap_inv hc l k (2*k+2) cur rcv
              (Or.inr rfl) hk hrc hgecur hgesib hHED hCov
            apply ih _ (2*k+2) _ d1 d2 d3
            rw [length_swap]
            omega

/-- `heapifyDown` from a slot whose subtree edges are the only suspects (and
whose parent, if any, outranks the slot's children) restores the full heap
property. -/
theorem heapifyDown_heap {T : Type} {cmp : Cmp T} (hc : LawfulCmp cmp)
    (l : List T) (k : Nat) (cur : T) (hk : l[k]? = some cur)
    (hHED : HeapExceptDown cmp l k) (hCov : Covered cmp l k) :
    IsHeap cmp (heapifyDown cmp l k).1 := by
  unfold heapifyDown
  rw [hk]
  exact heapifyDownGo_heap hc cur l.length l k (by omega) hk hHED hCov

end DS

namespace DS

open BinaryHeap

theorem nil_IsHeap {T : Type} (cmp : Cmp T) : IsHeap cmp ([] : List T) := by
  intro i j x y hj hx hy
  cases hx

theorem add_IsHeap {T : Type} {cmp : Cmp T} (hc : LawfulCmp cmp)
    (h : List T) (x : T) (hh : IsHeap cmp h) :
    IsHeap cmp (BinaryHeap.add cmp h x) := by
  unfold BinaryHeap.add
  show IsHeap cmp (heapifyUp cmp (h ++ [x]) ((h ++ [x]).length - 1)).1
  have hlen : (h ++ [x]).length - 1 = h.length := by simp
  rw [hlen]
  unfold heapifyUp
  rw [List.getElem?_concat_length]
  apply heapifyUpGo_heap hc x h.length _ h.length (Nat.le_refl _)
  · exact List.getElem?_concat_length h x
  · intro i j x' y hj hjne hx hy
    have hjlen : j < (h ++ [x]).length := (List.getElem?_eq_some.mp hy).1
    have hjh : j < h.length := by
      simp only [List.length_append, List.length_singleton] at hjlen
      omega
    have hih : i < h.length := by omega
    rw [List.getElem?_append, if_pos hjh] at hy
    rw [List.getElem?_append, if_pos hih] at hx
    exact hh i j x' y hj hx hy
  · intro p c x' y hp hcc hx hy
    exfalso
    have hclen : c < (h ++ [x]).length := (List.getElem?_eq_some.mp hy).1
    simp only [List.length_append, List.length_singleton] at hclen
    omega

theorem mem_swap {T : Type} {l : List T} {i j : Nat} {z : T}
    (hz : z ∈ swap l i j) : z ∈ l := by
  unfold swap at hz
  cases hi : l[i]? with
  | none => rw [hi] at hz; exact hz
  | some a =>
    rw [hi] at hz
    cases hj : l[j]? with
    | none => rw [hj] at hz; exact hz
    | some b =>
      rw [hj] at hz
      rcases List.mem_or_eq_of_mem_set hz with hz2 | hz2
      · rcases List.mem_or_eq_of_mem_set hz2 with hz3 | hz3
        · exact hz3
        · rw [hz3]
          exact List.getElem?_mem hj
      · rw [hz2]
        exact List.getElem?_mem hi

theorem mem_heapifyDownGo {T : Type} (cmp : Cmp T) (cur : T) :
    ∀ fuel (l : List T) (k : Nat) (z : T),
      z ∈ (heapifyDownGo cmp cur fuel l k).1 → z ∈ l := by
  intro fuel
  induction fuel with
  | zero => intro l k z hz; exact hz
  | succ f ih =>
    intro l k z hz
    unfold heapifyDownGo at hz
    by_cases hv :
        ((match l[2*k+1]? with
          | some lc => !(heapPropertyHolds cmp cur lc)
          | none => false)
        ||
         (match l[2*k+2]? with
          | some rc => !(heapPropertyHolds cmp cur rc)
          | none => false)) = true
    · rw [if_pos hv] at hz
      exact mem_swap (ih _ _ z hz)
    · rw [if_neg hv] at hz
      exact hz

theorem poll_spec {T : Type} {cmp : Cmp T} (hc : LawfulCmp cmp)
    (h : List T) (v : T) (h' : List T) (hh : IsHeap cmp h)
    (hp : poll cmp h = .ok (v, h')) :
    h[0]? = some v ∧ h'.length = h.length - 1 ∧ IsHeap cmp h'
    ∧ (∀ z ∈ h', z ∈ h) := by
  unfold poll at hp
  cases h0 : h[0]? with
  | none => rw [h0] at hp; cases hp
  | some first =>
    rw [h0] at hp
    dsimp only at hp
    have hlen0 : 0 < h.length := (List.getElem?_eq_some.mp h0).1
    have hlast : h.length - 1 < h.length := by omega
    have hpoplen : ((swap h 0 (h.length - 1)).dropLast).length = h.length - 1 := by
      rw [List.length_dropLast, length_swap]
    have hacc : ∀ m, m < h.length - 1 →
        ((swap h 0 (h.length - 1)).dropLast)[m]? =
          (if m = 0 then h[h.length - 1]? else h[m]?) := by
      intro m hm
      rw [List.getElem?_dropLast, length_swap, if_pos hm,
        getElem?_swap h 0 (h.length - 1) hlen0 hlast m]
      by_cases hm0 : m = 0
      · rw [if_pos hm0, if_pos hm0]
      · rw [if_neg hm0, if_neg hm0, if_neg (by omega)]
    by_cases hplen : 0 < ((swap h 0 (h.length - 1)).dropLast).length
    · rw [if_pos hplen] at hp
      have hpair : first = v ∧ (heapifyDown cmp
          ((swap h 0 (h.length - 1)).dropLast) 0).1 = h' := by
        injection hp with hp2
        rw [Prod.mk.injEq] at hp2
        exact hp2
      obtain ⟨hfv, hh'⟩ := hpair
      have hn2 : 2 ≤ h.length := by
        rw [hpoplen] at hplen
        omega
      have hroot0 : ((swap h 0 (h.length - 1)).dropLast)[0]? = h[h.length - 1]? := by
        rw [hacc 0 (by omega), if_pos rfl]
      obtain ⟨lastv, hlastv⟩ : ∃ a, h[h.length - 1]? = some a := by
        rw [List.getElem?_eq_getElem hlast]
        exact ⟨_, rfl⟩
      have hHED : HeapExceptDown cmp ((swap h 0 (h.length - 1)).dropLast) 0 := by
        intro i j x y hj hik hx hy
        have hjlen : j < h.length - 1 := by
          have := (List.getElem?_eq_some.mp hy).1
          rw [hpoplen] at this
          omega
        have hilen : i < h.length - 1 := by omega
        rw [hacc j hjlen, if_neg (by omega)] at hy
        rw [hacc i hilen, if_neg hik] at hx
        exact hh i j x y hj hx hy
      have hCov : Covered cmp ((swap h 0 (h.length - 1)).dropLast) 0 := by
        intro p c x y hp2 hcc hx hy
        omega
      refine ⟨by rw [hfv], ?_, ?_, ?_⟩
      · rw [← hh', heapifyDown_length, hpoplen]
      · rw [← hh']
        exact heapifyDown_heap hc _ 0 lastv (by rw [hroot0]; exact hlastv)
          hHED hCov
      · intro z hz
        rw [← hh'] at hz
        unfold heapifyDown at hz
        rw [hroot0, hlastv] at hz
        have hz2 := mem_heapifyDownGo cmp lastv _ _ _ z hz
        exact mem_swap (List.mem_of_mem_dropLast hz2)
    · rw [if_neg hplen] at hp
      have hpair : first = v ∧ (swap h 0 (h.length - 1)).dropLast = h' := by
        injection hp with hp2
        rw [Prod.mk.injEq] at hp2
        exact hp2
      obtain ⟨hfv, hh'⟩ := hpair
      have hempty : h' = [] := by
        rw [← hh']
        have : ((swap h 0 (h.length - 1)).dropLast).length = 0 := by omega
        exact List.length_eq_zero.mp this
      refine ⟨by rw [hfv], ?_, ?_, ?_⟩
      · rw [hempty]
        rw [hpoplen] at hplen
        simp
        omega
      · rw [hempty]
        exact nil_IsHeap cmp
      · intro z hz
        rw [hempty] at hz
        cases hz

end DS

namespace DS

open BinaryHeap

theorem isHeap_root_ge {T : Type} {cmp : Cmp T} (hc : LawfulCmp cmp)
    {h : List T} (hh : IsHeap cmp h) {m : T} (hm : h[0]? = some m) :
    ∀ (j : Nat) (y : T), h[j]? = some y → geC cmp m y := by
  intro j
  induction j using Nat.strong_induction_on with
  | _ j ih =>
    intro y hy
    by_cases hj : j = 0
    · subst hj
      rw [hm] at hy
      injection hy with hy
      rw [← hy]
      exact hc.ge_refl m
    · have hpj := child_of_parentIdx hj
      have hplt := parentIdx_lt hj
      have hjlen : j < h.length := (List.getElem?_eq_some.mp hy).1
      obtain ⟨py, hpy⟩ : ∃ a, h[(j-1)/2]? = some a := by
        rw [List.getElem?_eq_getElem (by omega)]
        exact ⟨_, rfl⟩
      exact hc.ge_trans (ih ((j-1)/2) hplt py hpy)
        (hh ((j-1)/2) j py y hpj hpy hy)

theorem isHeap_root_ge_mem {T : Type} {cmp : Cmp T} (hc : LawfulCmp cmp)
    {h : List T} (hh : IsHeap cmp h) {m : T} (hm : h[0]? = some m)
    {z : T} (hz : z ∈ h) : geC cmp m z := by
  obtain ⟨n, hn, he⟩ := List.getElem_of_mem hz
  exact isHeap_root_ge hc hh hm n z (by rw [List.getElem?_eq_getElem hn, he])

theorem pollSeq_chain {T : Type} {cmp : Cmp T} (hc : LawfulCmp cmp) :
    ∀ (k : Nat) (h : List T), IsHeap cmp h →
      List.Chain' (geC cmp) (pollSeq cmp k h) := by
  intro k
  induction k with
  | zero =>
    intro h _
    simp [pollSeq]
  | succ n ih =>
    intro h hh
    unfold pollSeq
    cases hp : poll cmp h with
    | error e => simp
    | ok vh =>
      obtain ⟨v, h2⟩ := vh
      obtain ⟨hr, hlen, hh2, hsub⟩ := poll_spec hc h v h2 hh hp
      rw [List.chain'_cons']
      refine ⟨?_, ih h2 hh2⟩
      intro b hb
      cases n with
      | zero => cases hb
      | succ n2 =>
        unfold pollSeq at hb
        cases hp2 : poll cmp h2 with
        | error e => rw [hp2] at hb; cases hb
        | ok vh2 =>
          rw [hp2] at hb
          have hb2 : b = vh2.1 := by
            simp only [List.head?_cons, Option.mem_some_iff] at hb
            rw [hb]
          obtain ⟨hr2, _, _, _⟩ := poll_spec hc h2 vh2.1 vh2.2 hh2 (by rw [hp2])
          have hmem : vh2.1 ∈ h2 := List.getElem?_mem hr2
          rw [hb2]
          exact isHeap_root_ge_mem hc hh hr (hsub vh2.1 hmem)

theorem runOps_heap {T : Type} {cmp : Cmp T} (hc : LawfulCmp cmp) :
    ∀ (ops : List (HeapOp T)) (h0 h : List T),
      IsHeap cmp h0 → runOps cmp ops h0 = some h → IsHeap cmp h := by
  intro ops
  induction ops with
  | nil =>
    intro h0 h hh hr
    unfold runOps at hr
    injection hr with hr
    rw [← hr]
    exact hh
  | cons op rest ih =>
    intro h0 h hh hr
    cases op with
    | add x =>
      unfold runOps at hr
      exact ih _ h (add_IsHeap hc h0 x hh) hr
    | poll =>
      unfold runOps at hr
      cases hp : poll cmp h0 with
      | error e => rw [hp] at hr; cases hr
      | ok vh =>
        rw [hp] at hr
        obtain ⟨_, _, hh2, _⟩ := poll_spec hc h0 vh.1 vh.2 hh (by rw [hp])
        exact ih _ h hh2 hr

/-- C4 amended: interleaved `add`s can break poll monotonicity (see the
counterexample), but the heap invariant holds after every operation
sequence, so every run of consecutive polls with no `add` between them is
non-increasing in priority: after any prefix of operations, the values
returned by `k` successive polls form a `geC`-chain. -/
theorem claim_C4 {T : Type} (cmp : Cmp T) (hc : LawfulCmp cmp)
    (ops : List (HeapOp T)) (h : List T)
    (hrun : runOps cmp ops [] = some h) (k : Nat) :
    List.Chain' (geC cmp) (pollSeq cmp k h) :=
  pollSeq_chain hc k h (runOps_heap hc ops [] h (nil_IsHeap cmp) hrun)

/-- Witness for C4 at a concrete run: after `add 5; add 10; poll` the heap
is `[5]` and three further polls yield the chain `[5]`. -/
theorem claim_C4_witness :
    List.Chain' (geC maxComparator) (pollSeq maxComparator 3 [5]) :=
  claim_C4 maxComparator lawful_maxComparator
    [.add 5, .add 10, .poll] [5] (by decide) 3

end DS

namespace DS

open BinaryHeap

theorem findIdx?_some_spec {T : Type} (p : T → Bool) :
    ∀ (l : List T) (i : Nat), l.findIdx? p = some i →
      ∃ a, l[i]? = some a ∧ p a = true := by
  intro l
  induction l with
  | nil =>
    intro i hi
    simp at hi
  | cons x xs ih =>
    intro i hi
    rw [List.findIdx?_cons] at hi
    by_cases hx : p x
    · rw [if_pos hx] at hi
      injection hi with hi
      rw [← hi]
      exact ⟨x, by simp, hx⟩
    · rw [if_neg hx] at hi
      rw [List.findIdx?_succ] at hi
      cases hf : xs.findIdx? p with
      | none => rw [hf] at hi; cases hi
      | some i0 =>
        rw [hf] at hi
        simp only [Option.map_some'] at hi
        injection hi with hi
        obtain ⟨a, ha, hpa⟩ := ih i0 hf
        rw [← hi]
        exact ⟨a, by simpa using ha, hpa⟩

/-- Executable bounded form of the heap invariant (used to discharge
`IsHeap` on concrete heaps). -/
def isHeapB {T : Type} (cmp : Cmp T) (l : List T) : Bool :=
  (List.range l.length).all (fun j =>
    if j = 0 then true
    else
      match l[(j-1)/2]?, l[j]? with
      | some x, some y => heapPropertyHolds cmp x y
      | _, _ => true)

theorem isHeapB_iff {T : Type} (cmp : Cmp T) (l : List T) :
    isHeapB cmp l = true ↔ IsHeap cmp l := by
  unfold isHeapB
  rw [List.all_eq_true]
  constructor
  · intro hall i j x y hj hx hy
    have hjlen : j < l.length := (List.getElem?_eq_some.mp hy).1
    have hj0 : j ≠ 0 := by omega
    have hij : i = (j-1)/2 := by omega
    have := hall j (List.mem_range.mpr hjlen)
    rw [if_neg hj0] at this
    rw [← hij] at this
    rw [hx, hy] at this
    exact (hph_true_iff cmp x y).mp this
  · intro hh j hjr
    by_cases hj0 : j = 0
    · rw [if_pos hj0]
    · rw [if_neg hj0]
      cases hx : l[(j-1)/2]? with
      | none => rfl
      | some x =>
        cases hy : l[j]? with
        | none => rfl
        | some y =>
          exact (hph_true_iff cmp x y).mpr
            (hh ((j-1)/2) j x y (child_of_parentIdx hj0) hx hy)

set_option maxHeartbeats 1000000 in
/-- C6: `BinaryHeap.remove` scans for the first strictly-equal element and
throws not-found when absent; on a hit it swaps that index with the last
slot, pops (size shrinks by exactly one), sifts up from the index when it is
still occupied, sifts down only when the up pass did not move, and the heap
property holds for every parent/child pair afterwards. -/
theorem claim_C6 {T : Type} [DecidableEq T] (cmp : Cmp T) (hc : LawfulCmp cmp)
    (h : List T) (x : T) (hh : IsHeap cmp h) :
    (x ∉ h → BinaryHeap.remove cmp h x = .error .notFound)
    ∧ (x ∈ h → ∃ h2, BinaryHeap.remove cmp h x = .ok (x, h2)
        ∧ h2.length + 1 = h.length ∧ IsHeap cmp h2) := by
  constructor
  · intro habs
    unfold BinaryHeap.remove
    have hnone : h.findIdx? (fun y => y == x) = none := by
      rw [List.findIdx?_eq_none_iff]
      intro y hy
      have : y ≠ x := by
        intro he
        rw [he] at hy
        exact habs hy
      simp [this]
    rw [hnone]
  · intro hmem
    unfold BinaryHeap.remove
    have hsome : ∃ idx, h.findIdx? (fun y => y == x) = some idx := by
      cases hf : h.findIdx? (fun y => y == x) with
      | none =>
        exfalso
        rw [List.findIdx?_eq_none_iff] at hf
        have := hf x hmem
        simp at this
      | some idx => exact ⟨idx, rfl⟩
    obtain ⟨idx, hidx⟩ := hsome
    rw [hidx]
    dsimp only
    obtain ⟨a, ha, hax⟩ := findIdx?_some_spec _ h idx hidx
    have hax2 : a = x := by simpa using hax
    have hin : idx < h.length := (List.getElem?_eq_some.mp ha).1
    have hn1 : 1 ≤ h.length := by omega
    have hlast : h.length - 1 < h.length := by omega
    have hpoplen : ((swap h idx (h.length - 1)).dropLast).length
        = h.length - 1 := by
      rw [List.length_dropLast, length_swap]
    have hacc : ∀ m, m < h.length - 1 →
        ((swap h idx (h.length - 1)).dropLast)[m]? =
          (if m = idx then h[h.length - 1]? else h[m]?) := by
      intro m hm
      rw [List.getElem?_dropLast, length_swap, if_pos hm,
        getElem?_swap h idx (h.length - 1) hin hlast m]
      by_cases hmi : m = idx
      · rw [if_pos hmi, if_pos hmi]
      · rw [if_neg hmi, if_neg hmi, if_neg (by omega)]
    by_cases hcond : 0 < ((swap h idx (h.length - 1)).dropLast).length
        ∧ idx < ((swap h idx (h.length - 1)).dropLast).length
    · rw [if_pos hcond]
      rw [hpoplen] at hcond
      obtain ⟨lastv, hlastv⟩ : ∃ a2, h[h.length - 1]? = some a2 := by
        rw [List.getElem?_eq_getElem hlast]
        exact ⟨_, rfl⟩
      have hidxv : ((swap h idx (h.length - 1)).dropLast)[idx]?
          = some lastv := by
        rw [hacc idx hcond.2, if_pos rfl]
        exact hlastv
      have hA : HeapExceptAt cmp ((swap h idx (h.length - 1)).dropLast) idx := by
        intro i j x2 y hj hik hjk hx hy
        have hjlen : j < h.length - 1 := by
          have := (List.getElem?_eq_some.mp hy).1
          rw [hpoplen] at this
          omega
        have hilen : i < h.length - 1 := by omega
        rw [hacc j hjlen, if_neg hjk] at hy
        rw [hacc i hilen, if_neg hik] at hx
        exact hh i j x2 y hj hx hy
      have hCov : Covered cmp ((swap h idx (h.length - 1)).dropLast) idx := by
        intro p c x2 y hp hcc hx hy
        have hclen : c < h.length - 1 := by
          have := (List.getElem?_eq_some.mp hy).1
          rw [hpoplen] at this
          omega
        have hplen : p < h.length - 1 := by omega
        rw [hacc c hclen, if_neg (by omega)] at hy
        rw [hacc p hplen, if_neg (by omega)] at hx
        exact hc.ge_trans (hh p idx x2 a hp hx ha) (hh idx c a y hcc ha hy)
      obtain ⟨hm1, hm2⟩ := heapifyUp_master hc
        ((swap h idx (h.length - 1)).dropLast) idx lastv hidxv hA hCov
      by_cases hmoved :
          (heapifyUp cmp ((swap h idx (h.length - 1)).dropLast) idx).2 = idx
      · rw [if_pos hmoved]
        obtain ⟨hsame, hHED⟩ := hm2 hmoved
        refine ⟨_, rfl, ?_, ?_⟩
        · rw [heapifyDown_length, heapifyUp_length, hpoplen]
          omega
        · rw [hmoved, hsame]
          exact heapifyDown_heap hc _ idx lastv hidxv hHED hCov
      · rw [if_neg hmoved]
        refine ⟨_, rfl, ?_, hm1 hmoved⟩
        rw [heapifyUp_length, hpoplen]
        omega
    · rw [if_neg hcond]
      refine ⟨_, rfl, ?_, ?_⟩
      · rw [hpoplen]
        omega
      · rw [hpoplen] at hcond
        by_cases hone : h.length = 1
        · have : ((swap h idx (h.length - 1)).dropLast) = [] := by
            apply List.length_eq_zero.mp
            rw [hpoplen, hone]
          rw [this]
          exact nil_IsHeap cmp
        · have hidxlast : idx = h.length - 1 := by omega
          intro i j x2 y hj hx hy
          have hjlen : j < h.length - 1 := by
            have := (List.getElem?_eq_some.mp hy).1
            rw [hpoplen] at this
            omega
          have hilen : i < h.length - 1 := by omega
          rw [hacc j hjlen, if_neg (by omega)] at hy
          rw [hacc i hilen, if_neg (by omega)] at hx
          exact hh i j x2 y hj hx hy

/-- Witness for C6 on the concrete max-heap `[3,2,1]`: removing the leaf `2`
and removing the absent `9`. -/
theorem claim_C6_witness :
    ((9 : Int) ∉ [(3 : Int), 2, 1] →
      BinaryHeap.remove maxComparator [(3 : Int), 2, 1] 9 = .error .notFound)
    ∧ ((9 : Int) ∈ [(3 : Int), 2, 1] →
      ∃ h2, BinaryHeap.remove maxComparator [(3 : Int), 2, 1] 9 = .ok (9, h2)
        ∧ h2.length + 1 = ([(3 : Int), 2, 1] : List Int).length
        ∧ IsHeap maxComparator h2) :=
  claim_C6 maxComparator lawful_maxComparator [3, 2, 1] 9
    ((isHeapB_iff maxComparator [3, 2, 1]).mp (by decide))

end DS
